import Mathlib

/-!
Verification of the rustwqb backtest engine against its specification.

The Rust sources are embedded shallowly:

* `storage/repository/backtest_repo.rs` : the job store (`create_job`,
  `claim_next`, `mark_failed_retryable`, `mark_failed_permanent`,
  `reset_stale_jobs`) acting on a list of job rows.
* `backtest/service.rs` : the error-handling policy of `handle_error`
  (retry budget and exponential-backoff delay).
* `backtest/worker.rs` : the submit-phase simulation-id extraction and the
  poll-loop step decision.
* `session/auto_auth_session.rs` : the `auth_request` throttle logic.
* `generate/field_sync.rs` : the process-wide running flag of
  `sync_all_discovered`.
* `generate/parser.rs` : `validate_prequeue`.
* `storage/repository/alpha_repo.rs` : the iterative `merge_json` and its
  recursive deep-merge counterpart.

Machine integers (i32/i64/u64) are modelled as `Int`/`Nat`; the only spot
where overflow semantics matter (`saturating_mul` in the backoff
computation) is made explicit via `satMul64`.
-/

namespace Rustwqb

/-! ## Job rows (storage/entity/backtest_job.rs) -/

/-- One row of the `backtest_jobs` table (`storage/entity/backtest_job.rs`). -/
structure Job where
  id : Int
  alpha_id : Option String
  expression : String
  simulation_id : Option String
  status : String
  priority : Int
  retry_count : Nat
  max_retries : Nat
  next_run_at : Int
  claimed_by : Option String
  claimed_at : Option Int
  metrics_json : Option String
  checks_json : Option String
  last_error_kind : Option String
  last_error_code : Option String
  last_error_message : Option String
  created_at : Int
  updated_at : Int
  region : String
  univ : String   -- the `universe` column (keyword in Lean)
  deriving Repr, DecidableEq

/-- The non-terminal statuses listed in `create_job`
(`backtest_repo.rs`, lines 24-31). -/
def nonTerminalStatuses : List String :=
  ["QUEUED", "RETRY_WAIT", "CLAIMED", "SUBMITTING", "RUNNING", "FETCHING"]

/-- The WHERE clause of the `claim_next` select (`backtest_repo.rs`,
lines 115-121): status QUEUED or RETRY_WAIT and `next_run_at <= now`. -/
def claimEligible (now : Int) (j : Job) : Bool :=
  (j.status == "QUEUED" || j.status == "RETRY_WAIT") && decide (j.next_run_at ≤ now)

/-- `ORDER BY priority DESC, created_at ASC`: `b` sorts strictly before `a`. -/
def claimBetter (a b : Job) : Bool :=
  decide (a.priority < b.priority) ||
    (b.priority == a.priority && decide (b.created_at < a.created_at))

/-- Fold that keeps the first row of the ordered select result: the
highest-priority, oldest eligible job, first-in-list among full ties. -/
def pickBest (best : Option Job) (j : Job) : Option Job :=
  match best with
  | none => some j
  | some b => if claimBetter b j then some j else some b

/-- The `SELECT ... ORDER BY priority DESC, created_at ASC LIMIT 1` of
`claim_next` over the job rows. -/
def selectNext (jobs : List Job) (now : Int) : Option Job :=
  (jobs.filter (claimEligible now)).foldl pickBest none

/-- The field updates applied to the picked row (`backtest_repo.rs`,
lines 130-139): status CLAIMED, `claimed_by`, `claimed_at`, `updated_at`. -/
def claimStamp (worker_id : String) (now2 : Int) (j : Job) : Job :=
  { j with status := "CLAIMED", claimed_by := some worker_id,
           claimed_at := some now2, updated_at := now2 }

/-- `BacktestRepository::claim_next` (`backtest_repo.rs`, lines 105-148):
select the eligible row ordered by priority DESC / created_at ASC, update it
to CLAIMED in the same transaction, and re-fetch it by id.  `now2` models the
second `Utc::now()` taken for the stamp. -/
def claim_next (jobs : List Job) (worker_id : String) (now now2 : Int) :
    Option Job × List Job :=
  match selectNext jobs now with
  | none => (none, jobs)
  | some j =>
      let jobs' := jobs.map
        (fun x => if x.id == j.id then claimStamp worker_id now2 x else x)
      ((jobs'.find? (fun x => x.id == j.id)), jobs')

/-- The fresh row inserted by `create_job` (`backtest_repo.rs`, lines 38-53). -/
def newJob (newId : Int) (expression region univ : String) (now : Int) : Job :=
  { id := newId, alpha_id := none, expression := expression,
    simulation_id := none, status := "QUEUED", priority := 0,
    retry_count := 0, max_retries := 5, next_run_at := now,
    claimed_by := none, claimed_at := none, metrics_json := none,
    checks_json := none, last_error_kind := none, last_error_code := none,
    last_error_message := none, created_at := now, updated_at := now,
    region := region, univ := univ }

/-- `BacktestRepository::create_job` (`backtest_repo.rs`, lines 16-57):
if a job with the same expression exists in a non-terminal status, return
`none`; otherwise insert a fresh QUEUED row and return its id. -/
def create_job (jobs : List Job) (expression region univ : String)
    (now newId : Int) : Option Int × List Job :=
  if jobs.any (fun j => j.expression == expression &&
      nonTerminalStatuses.contains j.status) then
    (none, jobs)
  else
    (some newId, jobs ++ [newJob newId expression region univ now])

/-- Number of jobs for `e` in a non-terminal status. -/
def liveCount (jobs : List Job) (e : String) : Nat :=
  (jobs.filter (fun j => j.expression == e &&
    nonTerminalStatuses.contains j.status)).length

/-- One enqueue request: expression, region, universe, `now`, fresh id. -/
structure EnqueueReq where
  expression : String
  region : String
  univ : String
  now : Int
  newId : Int

/-- A sequence of `create_job` calls applied to a store. -/
def enqueueAll (jobs : List Job) : List EnqueueReq → List Job
  | [] => jobs
  | r :: rs =>
      enqueueAll (create_job jobs r.expression r.region r.univ r.now r.newId).2 rs

/-! ## Retry budget and backoff (backtest/service.rs, handle_error) -/

/-- `u64::saturating_mul`. -/
def satMul64 (a b : Nat) : Nat := min (a * b) (2 ^ 64 - 1)

/-- The backoff delay computed in `handle_error` (`service.rs`, lines
164-170) for a job whose current `retry_count` is `retryCount`:
`exp = (1u64 << min(retry_count, 10)).saturating_mul(5)`,
`delay = min(exp, 600)`, then
`delay = delay + (delay / 5) * (rand_u8 as u64 % 5) / 5`.
`r` stands for the random `u8`; only `r % 5` matters. -/
def backoffDelay (retryCount : Nat) (r : Nat) : Nat :=
  let base := 5
  let cap := 600
  let e := satMul64 (1 <<< min retryCount 10) base
  let d := min e cap
  d + d / 5 * (r % 5) / 5

/-- Worker outcome fed into `handle_error` / `handle_success`. -/
inductive WorkerEvent where
  | success
  | failure (retryable : Bool)
  deriving Repr, DecidableEq

/-- Job state tracked by the retry-budget model. -/
structure JobSt where
  status : String
  retry_count : Nat
  max_retries : Nat
  last_error_kind : Option String
  deriving Repr, DecidableEq

/-- DONE and FAILED_PERMANENT are the terminal statuses. -/
def isTerminal (s : String) : Bool := s == "DONE" || s == "FAILED_PERMANENT"

/-- `BacktestService::handle_error` (`service.rs`, lines 140-206) combined
with the store updates it invokes: with `can_retry = retryable &&
retry_count < max_retries`, either `mark_failed_retryable` (status
RETRY_WAIT, `retry_count + 1`, kind RETRYABLE) or `mark_failed_permanent`
(kind PERMANENT when not retryable, RETRY_EXCEEDED otherwise). -/
def handleError (j : JobSt) (retryable : Bool) : JobSt :=
  if retryable && decide (j.retry_count < j.max_retries) then
    { j with status := "RETRY_WAIT", retry_count := j.retry_count + 1,
             last_error_kind := some "RETRYABLE" }
  else
    { j with status := "FAILED_PERMANENT",
             last_error_kind := some (if !retryable then "PERMANENT" else "RETRY_EXCEEDED") }

/-- `handle_success` via `mark_done`: the job becomes DONE. -/
def handleSuccess (j : JobSt) : JobSt := { j with status := "DONE" }

/-- One worker resolution.  Terminal jobs are never claimed again
(`claim_next` only selects QUEUED/RETRY_WAIT), so terminal states absorb. -/
def stepJob (j : JobSt) (e : WorkerEvent) : JobSt :=
  if isTerminal j.status then j
  else
    match e with
    | .success => handleSuccess j
    | .failure r => handleError j r

/-- A job processed through a sequence of worker resolutions. -/
def runJob (j : JobSt) (evs : List WorkerEvent) : JobSt := evs.foldl stepJob j

/-- A freshly enqueued job as `create_job` inserts it. -/
def freshJob (m : Nat) : JobSt :=
  { status := "QUEUED", retry_count := 0, max_retries := m, last_error_kind := none }

/-! ## JSON values (serde_json::Value) -/

/-- `serde_json::Value`.  Objects are association lists in ascending key
order (serde_json uses a BTreeMap); numbers are kept as their literal text,
since none of the embedded code inspects numeric values. -/
inductive Json where
  | null
  | bool (b : Bool)
  | num (lit : String)
  | str (s : String)
  | arr (elems : List Json)
  | obj (fields : List (String × Json))

/-- `map.get(key)` on an object; `none` on other values. -/
def jGet (v : Json) (key : String) : Option Json :=
  match v with
  | .obj fs => List.lookup key fs
  | _ => none

/-- `v.get(key).and_then(|x| x.as_str())`. -/
def jGetStr (v : Json) (key : String) : Option String :=
  match jGet v key with
  | some (.str s) => some s
  | _ => none

/-! ## Submit-phase simulation-id extraction (backtest/worker.rs, lines 46-73) -/

/-- A received HTTP body at the granularity the worker distinguishes:
whitespace-only/empty, non-empty but not valid JSON, or parsed JSON. -/
inductive BodyContent where
  | empty
  | invalid (raw : String)
  | json (v : Json)

/-- Rust `str::split(sep)` on a character list: splitting never yields an
empty group list (splitting the empty string gives one empty group). -/
def splitOnChar (sep : Char) : List Char → List (List Char)
  | [] => [[]]
  | c :: rest =>
      if c == sep then [] :: splitOnChar sep rest
      else
        match splitOnChar sep rest with
        | g :: gs => (c :: g) :: gs
        | [] => [[c]]

/-- `s.split('/').last()` on the Location header value (`worker.rs`,
line 52); the split is never empty, so `last()` is always `Some`. -/
def lastSegment (s : String) : String :=
  match (splitOnChar '/' s.toList).getLast? with
  | some l => String.mk l
  | none => ""

/-- Error classification of `BacktestError` (`backtest/model.rs`):
Infra is retryable, Alpha and Internal are not. -/
inductive ErrKind where
  | infra
  | alphaErr
  | internal
  deriving Repr, DecidableEq

/-- Simulation-id extraction after a 2xx submit response (`worker.rs`,
lines 46-73): `location_id` is the Location header's last path segment;
a non-empty body is parsed and its `id` field is preferred
(`sim_info.get("id").and_then(as_str).or(location_id)`); an empty body
falls back to `location_id` alone. -/
def extractSimId (locationHeader : Option String) (body : BodyContent) :
    Except ErrKind String :=
  let location_id := locationHeader.map lastSegment
  match body with
  | .invalid _ => .error .internal
  | .json v =>
      match jGetStr v "id" with
      | some s => .ok s
      | none =>
          match location_id with
          | some l => .ok l
          | none => .error .internal
  | .empty =>
      match location_id with
      | some l => .ok l
      | none => .error .internal

/-! ## Poll-loop step (backtest/worker.rs, lines 77-163) -/

/-- `SimulationResponse` (`session/dto.rs`): `id` and `status` are required
strings, `progress`, `alpha` and `message` are optional. -/
structure SimulationResponse where
  id : String
  status : String
  progress : Option Json
  alpha : Option String
  message : Option String

/-- serde parsing of an `Option<String>` field: missing or `null` is
`none`; a string is `some`; any other value is a type error. -/
def parseOptStr (fs : List (String × Json)) (k : String) :
    Option (Option String) :=
  match List.lookup k fs with
  | none => some none
  | some .null => some none
  | some (.str s) => some (some s)
  | some _ => none

/-- serde parsing of the `Option<f64>` progress field: missing or `null`
is `none`; a number is kept; any other value is a type error. -/
def parseOptNum (fs : List (String × Json)) (k : String) :
    Option (Option Json) :=
  match List.lookup k fs with
  | none => some none
  | some .null => some none
  | some (.num n) => some (some (.num n))
  | some _ => none

/-- serde parsing of a required `String` field. -/
def parseReqStr (fs : List (String × Json)) (k : String) : Option String :=
  match List.lookup k fs with
  | some (.str s) => some s
  | _ => none

/-- `serde_json::from_value::<SimulationResponse>` (against
`session/dto.rs`): fails when `id` or `status` is missing or mistyped. -/
def parseSimulationResponse (v : Json) : Option SimulationResponse :=
  match v with
  | .obj fs =>
      match parseReqStr fs "id", parseReqStr fs "status",
            parseOptNum fs "progress", parseOptStr fs "alpha",
            parseOptStr fs "message" with
      | some i, some st, some p, some a, some m =>
          some { id := i, status := st, progress := p, alpha := a, message := m }
      | _, _, _, _, _ => none
  | _ => none

/-- Digit accumulation of `str::parse::<u64>` (overflow is immaterial for
the headers considered here and checked against `2^64`). -/
def parseDigitsGo : Nat → List Char → Option Nat
  | acc, [] => some acc
  | acc, c :: rest =>
      if c.isDigit then parseDigitsGo (acc * 10 + (c.toNat - 48)) rest
      else none

/-- Rust `s.parse::<u64>().ok()`: an optional leading `+`, then at least
one digit, no larger than `u64::MAX`. -/
def parseU64 (s : String) : Option Nat :=
  let core := fun (ds : List Char) =>
    match ds with
    | [] => none
    | _ => (parseDigitsGo 0 ds).bind
        (fun n => if n < 2 ^ 64 then some n else none)
  match s.toList with
  | '+' :: ds => core ds
  | ds => core ds

/-- Outcome of one iteration of the polling loop. -/
inductive PollStep where
  | again (sleepSecs : Nat)
  | fetch (alphaId : String)
  | fail (kind : ErrKind)
  deriving Repr, DecidableEq

/-- One iteration of the polling loop (`worker.rs`, lines 86-163) on an
HTTP-200 poll response: `has_retry_after` is whether the Retry-After header
is present, `retry_after` its parsed value with default 20; an empty body
sleeps and continues; when the header is present and the body lacks
`status`, sleep and continue; otherwise the body is force-parsed as
`SimulationResponse` and dispatched on `status`. -/
def pollStep (retryAfterHeader : Option String) (body : BodyContent) : PollStep :=
  let has_retry_after := retryAfterHeader.isSome
  let retry_after := ((retryAfterHeader.bind parseU64).getD 20)
  match body with
  | .empty => .again retry_after
  | .invalid _ => .fail .internal
  | .json v =>
      if has_retry_after && (jGet v "status").isNone then
        .again retry_after
      else
        match parseSimulationResponse v with
        | none => .fail .internal
        | some info =>
            if info.status == "COMPLETE" || info.status == "WARNING" then
              match info.alpha with
              | some a => .fetch a
              | none => .fail .internal
            else if info.status == "ERROR" || info.status == "FAIL" then
              .fail .alphaErr
            else if info.status == "CANCELLED" then
              .fail .infra
            else
              .again retry_after

/-! ## auth_request throttle (session/auto_auth_session.rs, lines 68-147) -/

/-- The send loop of `do_auth_request` (lines 105-136): `maxTries`
iterations; an iteration with a method other than POST/GET performs no
request (`continue`); otherwise one request is sent and the loop breaks
when `auth_expected` holds for the response.  `outcomes` lists the
`auth_expected` evaluations of successive responses (exhaustion counts as
not-expected).  Returns the number of HTTP requests sent. -/
def authLoopSends (validMethod : Bool) : List Bool → Nat → Nat
  | _, 0 => 0
  | outcomes, n + 1 =>
      if validMethod then
        match outcomes with
        | [] => 1 + authLoopSends validMethod [] n
        | o :: rest => if o then 1 else 1 + authLoopSends validMethod rest n
      else authLoopSends validMethod outcomes n

/-- `AutoAuthSession::auth_request` (lines 68-99), counting the HTTP
requests performed against the auth endpoint.  The throttle block (lines
69-79) compares the time since the last successful auth against 30 s but
only emits a debug log: control falls through.  The `is_authenticating`
check (lines 83-91) sleeps when another auth is in flight but also falls
through.  `do_auth_request` is then always invoked. -/
def authRequestSends (lastAuthElapsed : Option Nat) (isAuthenticating : Bool)
    (validMethod : Bool) (outcomes : List Bool) (maxTries : Nat) : Nat :=
  let _recentlySucceeded :=
    match lastAuthElapsed with
    | some e => decide (e < 30)
    | none => false
  let _othersAuthenticating := isAuthenticating
  authLoopSends validMethod outcomes maxTries

/-! ## Field-sync running flag (generate/field_sync.rs, lines 313-356) -/

/-- Observable outcome of one `sync_all_discovered` call. -/
inductive SyncOutcome where
  | skipped
  | failed
  | completed
  deriving Repr, DecidableEq

/-- `FieldSyncService::sync_all_discovered` acting on the `running` flag:
`running.swap(true)` returns early (no-op) when a sync is already live;
a discovery error propagates with `?` before the flag is reset; the flag is
stored back to `false` only at the end of the successful path. -/
def sync_all_discovered (running : Bool) (discoveryOk : Bool) :
    Bool × SyncOutcome :=
  if running then (true, .skipped)
  else if discoveryOk then (false, .completed)
  else (true, .failed)

/-- `FieldSyncService::is_running`. -/
def is_running (running : Bool) : Bool := running

/-- A sequence of `sync_all_discovered` calls; `ds` gives each call's
discovery result. -/
def runSyncs (running : Bool) : List Bool → Bool × List SyncOutcome
  | [] => (running, [])
  | d :: ds =>
      let r := sync_all_discovered running d
      let rest := runSyncs r.1 ds
      (rest.1, r.2 :: rest.2)

/-! ## validate_prequeue (generate/parser.rs, lines 9-107)

The Rust scans byte slices with indices; the embedding works on the
character list of the (ASCII) expression with structurally equivalent
scans.  `u8::is_ascii_whitespace` matches space, tab, LF, FF and CR. -/

/-- `u8::is_ascii_whitespace`. -/
def asciiWs (c : Char) : Bool :=
  c == ' ' || c == '\t' || c == '\n' || c == '\x0c' || c == '\r'

/-- `str::trim` restricted to ASCII whitespace (the expressions handled by
the generator are ASCII). -/
def trimChars (s : List Char) : List Char :=
  ((s.dropWhile asciiWs).reverse.dropWhile asciiWs).reverse

/-- After a `)`, skip whitespace and test for `(` (`parser.rs` lines
16-22). -/
def nextNonWsIsLParen : List Char → Bool
  | [] => false
  | c :: rest => if asciiWs c then nextNonWsIsLParen rest else c == '('

/-- Check 1 (`parser.rs` lines 11-26): some `)` is followed, modulo
whitespace, by `(`. -/
def hasRPLP : List Char → Bool
  | [] => false
  | c :: rest => (c == ')' && nextNonWsIsLParen rest) || hasRPLP rest

/-- Skip whitespace forward and test for `)`. -/
def nextNonWsIsRParen : List Char → Bool
  | [] => false
  | c :: rest => if asciiWs c then nextNonWsIsRParen rest else c == ')'

/-- Check 2 (`parser.rs` lines 27-47): some `)` is preceded, modulo
whitespace, by `,`.  The Rust scans backwards from each `)`; looking
forwards from each `,` visits the same pairs. -/
def hasTrailingComma : List Char → Bool
  | [] => false
  | c :: rest => (c == ',' && nextNonWsIsRParen rest) || hasTrailingComma rest

/-- ASCII lowercase of one character (`u8::to_ascii_lowercase`). -/
def asciiLower (c : Char) : Char :=
  if 'A' ≤ c && c ≤ 'Z' then Char.ofNat (c.toNat + 32) else c

/-- Does the string start with `winsorize(` after ASCII lowercasing
(the `lower[pos..].find("winsorize(")` probe at the current position)? -/
def winsHead (s : List Char) : Bool :=
  List.isPrefixOf "winsorize(".toList (s.map asciiLower)

/-- Argument-list scan of one `winsorize(` call (`parser.rs` lines 55-74):
starting at depth 1, split the text at top-level commas; on the matching
`)` the current segment is pushed and the scan stops.  Returns the
segments, the number of characters consumed (including the closing paren
when found), and whether the closing paren was found.  When the input ends
at depth > 0 the trailing segment is not pushed, as in the source. -/
def splitArgsGo : List Char → Int → List Char → List (List Char) → Nat →
    List (List Char) × Nat × Bool
  | [], _, _, segs, n => (segs, n, false)
  | c :: rest, depth, cur, segs, n =>
      if c == '(' then
        splitArgsGo rest (depth + 1) (cur ++ [c]) segs (n + 1)
      else if c == ')' then
        if depth == 1 then (segs ++ [cur], n + 1, true)
        else splitArgsGo rest (depth - 1) (cur ++ [c]) segs (n + 1)
      else if c == ',' && depth == 1 then
        splitArgsGo rest depth [] (segs ++ [cur]) (n + 1)
      else
        splitArgsGo rest depth (cur ++ [c]) segs (n + 1)

/-- Entry point of the argument scan, one past `winsorize(`. -/
def splitArgs (s : List Char) : List (List Char) × Nat × Bool :=
  splitArgsGo s 1 [] [] 0

/-- Is a (trimmed, non-empty) segment a named `key=value` argument: a `=`
at paren depth 0 (`parser.rs` lines 81-92)? -/
def segIsNamed : List Char → Int → Bool
  | [], _ => false
  | c :: rest, d =>
      if c == '(' then segIsNamed rest (d + 1)
      else if c == ')' then segIsNamed rest (d - 1)
      else if c == '=' && d == 0 then true
      else segIsNamed rest d

/-- Count of positional arguments: non-empty after trim and not named
(`parser.rs` lines 75-96). -/
def countPositional (segs : List (List Char)) : Nat :=
  (segs.filter (fun seg =>
    let t := trimChars seg
    !t.isEmpty && !segIsNamed t 0)).length

/-- Check 3 (`parser.rs` lines 48-104), fuelled so that the definition
computes: find each `winsorize(` occurrence (case-insensitive), scan its
argument list, flag `positional > 1`, and resume searching after the
call's closing paren.  One unit of fuel is spent per character position
examined, so `s.length + 1` fuel always suffices. -/
def winsorizeScanF : Nat → List Char → Bool
  | 0, _ => false
  | _ + 1, [] => false
  | fuel + 1, c :: rest =>
      if winsHead (c :: rest) then
        let r := splitArgsGo ((c :: rest).drop 10) 1 [] [] 0
        if countPositional r.1 > 1 then true
        else if r.2.2 then winsorizeScanF fuel ((c :: rest).drop (10 + r.2.1))
        else false
      else winsorizeScanF fuel rest

/-- The winsorize-arity check over a whole expression. -/
def winsorizeScan (s : List Char) : Bool := winsorizeScanF (s.length + 1) s

/-- The three checks in source order, on the trimmed character list. -/
def validateCore (s : List Char) : Except String Unit :=
  if hasRPLP s then .error "unexpected_right_paren"
  else if hasTrailingComma s then .error "trailing_comma"
  else if winsorizeScan s then .error "winsorize_arity"
  else .ok ()

/-- `validate_prequeue` (`parser.rs`, lines 9-107). -/
def validate_prequeue (expr : String) : Except String Unit :=
  validateCore (trimChars expr.toList)


/-! ## JSON deep merge (storage/repository/alpha_repo.rs, lines 363-392)

`merge_json` is the iterative, path-queued merge of the source; `deepMerge`
is the recursive deep-merge reference definition written from the spec
sentence: object keys recurse, non-object values (arrays and scalars)
overwrite.  `sizeJ` counts nodes and serves as the termination measure. -/

mutual
/-- Node count of a JSON value. -/
def sizeJ : Json → Nat
  | .null => 1
  | .bool _ => 1
  | .num _ => 1
  | .str _ => 1
  | .arr xs => 1 + sizeArr xs
  | .obj fs => 1 + sizeFields fs
/-- Node count of an array body. -/
def sizeArr : List Json → Nat
  | [] => 0
  | x :: xs => 1 + sizeJ x + sizeArr xs
/-- Node count of an object body. -/
def sizeFields : List (String × Json) → Nat
  | [] => 0
  | kv :: fs => 1 + sizeJ kv.2 + sizeFields fs
end

/-- The fields of an object; `[]` otherwise. -/
def fieldsOf : Json → List (String × Json)
  | .obj fs => fs
  | _ => []

/-- `true` exactly on objects (`Value::is_object`). -/
def isObjB : Json → Bool
  | .obj _ => true
  | _ => false

/-- `BTreeMap` insert on an ascending association list: replace the
existing binding of `k` or insert at the sorted position.  Both the
iterative and the recursive merge write fields through this single
primitive, mirroring `serde_json::Map::entry` / assignment. -/
def setField : List (String × Json) → String → Json → List (String × Json)
  | [], k, v => [(k, v)]
  | (k2, v2) :: rest, k, v =>
      if k < k2 then (k, v) :: (k2, v2) :: rest
      else if k == k2 then (k, v) :: rest
      else (k2, v2) :: setField rest k v

/-- The mutation performed by the navigation loop of `merge_json`
(lines 370-377): walking `path`, every non-object node met is replaced by
an empty object and missing keys are inserted as `Null`
(`entry(key).or_insert(Value::Null)`). -/
def ensurePath : Json → List String → Json
  | a, [] => a
  | a, k :: p =>
      .obj (setField (fieldsOf a) k
        (ensurePath ((List.lookup k (fieldsOf a)).getD .null) p))

/-- The value the navigation loop's `tgt` points at (after `ensurePath`
has been applied). -/
def getPath : Json → List String → Json
  | a, [] => a
  | a, k :: p => getPath ((List.lookup k (fieldsOf a)).getD .null) p

/-- Writing `*tgt = v` at a path. -/
def setPath : Json → List String → Json → Json
  | _, [], v => v
  | a, k :: p, v =>
      .obj (setField (fieldsOf a) k
        (setPath ((List.lookup k (fieldsOf a)).getD .null) p v))

/-- Combined size of the values queued in the work list. -/
def qSize : List (List String × Json) → Nat
  | [] => 0
  | e :: rest => sizeJ e.2 + qSize rest

/-- The `while let Some((path, v)) = queue.pop()` loop of `merge_json`
(lines 368-391).  The Rust `Vec` pops from the back; the list here keeps
the top of the stack at the head, so pushing an object's sub-entries in
map order and popping from the back becomes prepending them reversed.
When target and queued value are both objects the sub-keys are queued;
otherwise the target is overwritten. -/
def mergeLoop (a : Json) (q : List (List String × Json)) : Json :=
  match q with
  | [] => a
  | (p, v) :: rest =>
      if isObjB (getPath (ensurePath a p) p) && isObjB v then
        mergeLoop (ensurePath a p)
          ((((fieldsOf v).map (fun kv => (p ++ [kv.1], kv.2))).reverse) ++ rest)
      else mergeLoop (setPath (ensurePath a p) p v) rest
termination_by qSize q
decreasing_by
· have happ : ∀ (xs ys : List (List String × Json)),
      qSize (xs ++ ys) = qSize xs + qSize ys := by
    intro xs ys
    induction xs with
    | nil => simp [qSize]
    | cons x xs ih => simp [qSize, ih]; omega
  have hrev : ∀ xs : List (List String × Json), qSize xs.reverse = qSize xs := by
    intro xs
    induction xs with
    | nil => rfl
    | cons x xs ih =>
        have := happ xs.reverse [x]
        simp [List.reverse_cons, this, qSize, ih]
        omega
  have hmap : ∀ (fb : List (String × Json)) (p : List String),
      qSize (fb.map (fun kv => (p ++ [kv.1], kv.2))) ≤ sizeFields fb := by
    intro fb p
    induction fb with
    | nil => simp [qSize, sizeFields]
    | cons kv fb ih => simp [qSize, sizeFields]; omega
  have h1 := hmap (fieldsOf v) p
  rename_i h
  rw [Bool.and_eq_true] at h
  have hobj : isObjB v = true := h.2
  have h2 : sizeFields (fieldsOf v) < sizeJ v := by
    cases v
    case obj fs => simp [fieldsOf, sizeJ]
    all_goals simp [isObjB] at hobj
  simp [happ, hrev, qSize]
  omega
· have h2 : 1 ≤ sizeJ v := by
    cases v <;> simp [sizeJ]
  simp [qSize]
  omega

/-- `merge_json(&mut a, &b)` (`alpha_repo.rs`, lines 363-392): the queue
starts with the root path and a clone of `b`. -/
def merge_json (a b : Json) : Json := mergeLoop a [([], b)]

mutual
/-- Recursive deep merge, written from the spec sentence: when both sides
are objects the keys recurse, otherwise the new value overwrites. -/
def deepMerge : Json → Json → Json
  | .obj fa, .obj fb => .obj (deepMergeFields fa fb)
  | _, b => b
termination_by a b => sizeJ b
decreasing_by
all_goals simp [sizeJ, sizeFields] <;> omega
/-- Folding the fields of the new object into the fields of the old one,
left to right. -/
def deepMergeFields : List (String × Json) → List (String × Json) →
    List (String × Json)
  | fa, [] => fa
  | fa, (k, bv) :: rest =>
      deepMergeFields (setField fa k (deepMerge ((List.lookup k fa).getD .null) bv)) rest
termination_by fa fb => sizeFields fb
decreasing_by
all_goals simp [sizeJ, sizeFields] <;> omega
end

/-- Deep merge of `v` into the node of `a` at `path`, creating the path as
the navigation loop does.  `deepMergeAt a [] v = deepMerge a v`. -/
def deepMergeAt : Json → List String → Json → Json
  | a, [], v => deepMerge a v
  | a, k :: p, v =>
      .obj (setField (fieldsOf a) k
        (deepMergeAt ((List.lookup k (fieldsOf a)).getD .null) p v))

/-- Pairwise-distinct keys. -/
def keysDistinct : List String → Bool
  | [] => true
  | k :: ks => !(ks.contains k) && keysDistinct ks

mutual
/-- Well-formedness of a JSON value as `serde_json::Value` guarantees it:
every object has pairwise-distinct keys (a `serde_json::Map` cannot hold
duplicates). -/
def wfJson : Json → Bool
  | .obj fs => keysDistinct (fs.map Prod.fst) && wfFields fs
  | .arr xs => wfArr xs
  | _ => true
/-- `wfJson` on every array element. -/
def wfArr : List Json → Bool
  | [] => true
  | x :: xs => wfJson x && wfArr xs
/-- `wfJson` on every field value. -/
def wfFields : List (String × Json) → Bool
  | [] => true
  | kv :: fs => wfJson kv.2 && wfFields fs
end

/-! ## Theorems -/

/-- C10: when `sync_all_discovered` starts with the running flag clear and
the discovery phase fails, the early `?` return leaves the flag set; every
subsequent call (whatever its discovery result) is an immediate skipped
no-op, the flag stays `true` forever, and `is_running` reports `true`; the
flag comes back to `false` only via the successful completion path. -/
theorem sync_flag_stuck_after_discovery_error :
    sync_all_discovered false false = (true, SyncOutcome.failed)
    ∧ (∀ ds : List Bool,
        (runSyncs true ds).1 = true
        ∧ (runSyncs true ds).2 = List.replicate ds.length SyncOutcome.skipped
        ∧ is_running (runSyncs true ds).1 = true)
    ∧ (∀ running discoveryOk,
        (sync_all_discovered running discoveryOk).1 = false →
          running = false ∧ discoveryOk = true) := by
  refine ⟨rfl, ?_, ?_⟩
  · intro ds
    induction ds with
    | nil => exact ⟨rfl, rfl, rfl⟩
    | cons d ds ih =>
        refine ⟨?_, ?_, ?_⟩ <;>
          simp [runSyncs, sync_all_discovered, is_running, ih.1, ih.2.1,
                List.replicate]
  · intro r d h
    cases r <;> cases d <;> simp_all [sync_all_discovered]

/-- Closed instance of `sync_flag_stuck_after_discovery_error`. -/
theorem sync_flag_stuck_witness :
    (runSyncs true [true, false]).2 = List.replicate 2 SyncOutcome.skipped
    ∧ (false = false ∧ true = true) :=
  ⟨(sync_flag_stuck_after_discovery_error.2.1 [true, false]).2.1,
   sync_flag_stuck_after_discovery_error.2.2 false true rfl⟩

/-- C6 (code bug): the 30-second throttle block of `auth_request` only
logs; it does not return.  A call made 5 s after a successful auth still
performs an HTTP request against the auth endpoint (here exactly one, the
first attempt succeeding), and in general any call with a positive
try-budget and the configured POST method performs at least one HTTP
request no matter how recent the last success was. -/
theorem auth_request_throttle_ineffective :
    authRequestSends (some 5) false true [true] 3 = 1
    ∧ (∀ (e : Nat) (b : Bool) (outcomes : List Bool) (n : Nat),
        e < 30 → 1 ≤ authRequestSends (some e) b true outcomes (n + 1)) := by
  constructor
  · rfl
  · intro e b outcomes n _he
    cases outcomes with
    | nil => simp [authRequestSends, authLoopSends]
    | cons o rest =>
        cases o <;> simp [authRequestSends, authLoopSends]

/-- Closed instance of `auth_request_throttle_ineffective`. -/
theorem auth_request_throttle_witness :
    1 ≤ authRequestSends (some 5) false true [true] 3 :=
  auth_request_throttle_ineffective.2 5 false [true] 2 (by decide)

/-- C5 (code bug): a 200 poll response whose body has `progress` but no
`status` and that carries no Retry-After header is force-parsed as a
`SimulationResponse` (requiring `id` and `status`) and therefore fails
with an Internal error, instead of sleeping and polling again; the
in-progress branch fires only when the Retry-After header is present
(`has_retry_after && status is none`), in which case the worker does poll
again. -/
theorem poll_progress_only_without_retry_after_errors :
    pollStep none (.json (.obj [("progress", .num "0.5")])) = .fail .internal
    ∧ pollStep (some "7") (.json (.obj [("progress", .num "0.5")])) = .again 7
    ∧ pollStep (some "7") (.json (.obj [("progress", .num "0.5")])) ≠ .fail .internal := by
  exact ⟨rfl, rfl, by decide⟩

/-- C4 counterexample: a 2xx submit response carrying both a Location
header and a non-empty JSON body with an `id` field uses the body id, not
the Location header's last segment. -/
theorem submit_id_prefers_body_cex :
    extractSimId (some "/simulations/sim_loc")
        (.json (.obj [("id", .str "sim_body")])) = .ok "sim_body"
    ∧ lastSegment "/simulations/sim_loc" = "sim_loc"
    ∧ ("sim_body" : String) ≠ "sim_loc" :=
  ⟨rfl, rfl, by decide⟩

/-- C4 amended: on a 2xx submit response, a non-empty JSON body's string
`id` field is used first, the Location header's last path segment is the
fallback (used when the body is empty or lacks a string `id`); with
neither available the submit fails as Internal. -/
theorem extract_sim_id_spec :
    ∀ (loc : String) (v : Json) (s : String),
      (jGetStr v "id" = some s → extractSimId (some loc) (.json v) = .ok s)
      ∧ (jGetStr v "id" = none →
          extractSimId (some loc) (.json v) = .ok (lastSegment loc))
      ∧ extractSimId (some loc) .empty = .ok (lastSegment loc)
      ∧ (jGetStr v "id" = some s → extractSimId none (.json v) = .ok s)
      ∧ (jGetStr v "id" = none →
          extractSimId none (.json v) = .error ErrKind.internal)
      ∧ extractSimId none .empty = .error ErrKind.internal := by
  intro loc v s
  refine ⟨?_, ?_, rfl, ?_, ?_, rfl⟩ <;> intro h <;>
    simp [extractSimId, h]

/-- Closed instance of `extract_sim_id_spec`. -/
theorem extract_sim_id_spec_witness :
    extractSimId (some "/simulations/s1")
        (.json (.obj [("id", .str "x")])) = .ok "x"
    ∧ extractSimId none (.json (.obj [])) = .error ErrKind.internal :=
  ⟨(extract_sim_id_spec "/simulations/s1" (.obj [("id", .str "x")]) "x").1 rfl,
   (extract_sim_id_spec "s1" (.obj []) "x").2.2.2.2.1 rfl⟩

/-- C3 counterexample: the claimed interval lower bound `base * 2^k` fails
at `k = 7` (with `max_retries` above 7 and zero jitter): the computed
delay is capped at 600 while `5 * 2^7 = 640`. -/
theorem backoff_claim_cex :
    ¬ (∀ (m k r : Nat), k ≤ 10 → k < m →
        5 * 2 ^ k ≤ backoffDelay k r ∧
        5 * backoffDelay k r ≤ 6 * min 600 (5 * 2 ^ k)) := by
  intro h
  have h1 := (h 8 7 0 (by decide) (by decide)).1
  have h2 : backoffDelay 7 0 = 600 := by decide
  rw [h2] at h1
  norm_num at h1

/-- C3 amended: after `k` consecutive retryable failures (`k ≤ 10`), the
scheduled delay lies in the interval from `min(cap, base * 2^k)` to
`1.2 * min(cap, base * 2^k)`, with base 5 s and cap 600 s, for every value
of the random jitter byte. -/
theorem backoff_delay_bounds :
    ∀ (k r : Nat), k ≤ 10 →
      min 600 (5 * 2 ^ k) ≤ backoffDelay k r ∧
      5 * backoffDelay k r ≤ 6 * min 600 (5 * 2 ^ k) := by
  intro k r hk
  have hshift : (1 <<< min k 10) = 2 ^ k := by
    rw [min_eq_left hk, Nat.shiftLeft_eq, one_mul]
  have hpow : 2 ^ k ≤ 2 ^ 10 := Nat.pow_le_pow_right (by norm_num) hk
  have hsat : satMul64 (2 ^ k) 5 = 2 ^ k * 5 := by
    unfold satMul64
    apply min_eq_left
    calc 2 ^ k * 5 ≤ 2 ^ 10 * 5 := by omega
    _ ≤ 2 ^ 64 - 1 := by norm_num
  have hcomm : min (2 ^ k * 5) 600 = min 600 (5 * 2 ^ k) := by
    rw [min_comm, Nat.mul_comm]
  have hunfold : backoffDelay k r =
      min 600 (5 * 2 ^ k) + min 600 (5 * 2 ^ k) / 5 * (r % 5) / 5 := by
    simp only [backoffDelay, hshift, hsat, hcomm]
  set d := min 600 (5 * 2 ^ k) with hd
  have hd2 : d = 600 ∨ d = 5 * 2 ^ k := by
    rw [hd]
    rcases le_total 600 (5 * 2 ^ k) with h | h
    · exact Or.inl (min_eq_left h)
    · exact Or.inr (min_eq_right h)
  have h5 : d % 5 = 0 := by
    rcases hd2 with h | h
    · rw [h]
    · rw [h]; exact Nat.mul_mod_right 5 (2 ^ k)
  have hr : r % 5 ≤ 4 := by omega
  have hj : d / 5 * (r % 5) ≤ d / 5 * 4 := Nat.mul_le_mul_left _ hr
  have hdiv : d / 5 * (r % 5) / 5 ≤ d / 5 :=
    le_trans (Nat.div_le_div_right hj) (by omega)
  rw [hunfold]
  omega

/-- Closed instance of `backoff_delay_bounds`. -/
theorem backoff_delay_bounds_witness :
    min 600 (5 * 2 ^ 3) ≤ backoffDelay 3 7 ∧
    5 * backoffDelay 3 7 ≤ 6 * min 600 (5 * 2 ^ 3) :=
  backoff_delay_bounds 3 7 (by decide)

/-- Unfolding: events leave terminal jobs unchanged. -/
theorem stepJob_terminal (j : JobSt) (e : WorkerEvent)
    (h : isTerminal j.status = true) : stepJob j e = j := by
  simp [stepJob, h]

/-- Unfolding: a success on a live job. -/
theorem stepJob_success (j : JobSt) (h : isTerminal j.status = false) :
    stepJob j WorkerEvent.success = handleSuccess j := by
  simp [stepJob, h]

/-- Unfolding: a failure on a live job. -/
theorem stepJob_failure (j : JobSt) (r : Bool)
    (h : isTerminal j.status = false) :
    stepJob j (WorkerEvent.failure r) = handleError j r := by
  simp [stepJob, h]

/-- Unfolding: a non-retryable failure is PERMANENT. -/
theorem handleError_permanent (j : JobSt) :
    handleError j false =
      { j with status := "FAILED_PERMANENT",
               last_error_kind := some "PERMANENT" } := by
  simp [handleError]

/-- Unfolding: a retryable failure inside the budget. -/
theorem handleError_retry (j : JobSt) (h : j.retry_count < j.max_retries) :
    handleError j true =
      { j with status := "RETRY_WAIT", retry_count := j.retry_count + 1,
               last_error_kind := some "RETRYABLE" } := by
  simp [handleError, h]

/-- Unfolding: a retryable failure with the budget exhausted. -/
theorem handleError_exceeded (j : JobSt)
    (h : ¬ j.retry_count < j.max_retries) :
    handleError j true =
      { j with status := "FAILED_PERMANENT",
               last_error_kind := some "RETRY_EXCEEDED" } := by
  simp [handleError, h]

/-- Terminal states absorb: a DONE or FAILED_PERMANENT job is never
claimed again, so further events leave it unchanged. -/
theorem runJob_terminal (j : JobSt) (h : isTerminal j.status = true) :
    ∀ evs, runJob j evs = j := by
  intro evs
  induction evs with
  | nil => rfl
  | cons e evs ih =>
      show runJob (stepJob j e) evs = j
      rw [stepJob_terminal j e h]
      exact ih

/-- One step keeps `retry_count ≤ max_retries` and never changes
`max_retries`. -/
theorem stepJob_retry_le (j : JobSt) (e : WorkerEvent)
    (h : j.retry_count ≤ j.max_retries) :
    (stepJob j e).retry_count ≤ (stepJob j e).max_retries ∧
    (stepJob j e).max_retries = j.max_retries := by
  by_cases ht : isTerminal j.status = true
  · rw [stepJob_terminal j e ht]; exact ⟨h, rfl⟩
  · have ht' : isTerminal j.status = false := by
      cases hb : isTerminal j.status
      · rfl
      · exact absurd hb ht
    cases e with
    | success => rw [stepJob_success j ht']; exact ⟨h, rfl⟩
    | failure r =>
        rw [stepJob_failure j r ht']
        cases r with
        | false => rw [handleError_permanent]; exact ⟨h, rfl⟩
        | true =>
            by_cases hlt : j.retry_count < j.max_retries
            · rw [handleError_retry j hlt]; exact ⟨hlt, rfl⟩
            · rw [handleError_exceeded j hlt]; exact ⟨h, rfl⟩

/-- The retry-count invariant along any event sequence. -/
theorem runJob_retry_le :
    ∀ (evs : List WorkerEvent) (j : JobSt), j.retry_count ≤ j.max_retries →
      (runJob j evs).retry_count ≤ (runJob j evs).max_retries ∧
      (runJob j evs).max_retries = j.max_retries := by
  intro evs
  induction evs with
  | nil => intro j h; exact ⟨h, rfl⟩
  | cons e evs ih =>
      intro j h
      have hs := stepJob_retry_le j e h
      have hrun : runJob j (e :: evs) = runJob (stepJob j e) evs := rfl
      rw [hrun]
      have := ih (stepJob j e) (hs.2 ▸ hs.1)
      exact ⟨this.1, this.2.trans hs.2⟩

/-- Characterization of reaching FAILED_PERMANENT with RETRY_EXCEEDED from
an arbitrary live state: exactly the next
`max_retries - retry_count + 1` events are retryable failures. -/
theorem runJob_retry_exceeded_char :
    ∀ (evs : List WorkerEvent) (j : JobSt),
      isTerminal j.status = false → j.retry_count ≤ j.max_retries →
      (((runJob j evs).status = "FAILED_PERMANENT" ∧
        (runJob j evs).last_error_kind = some "RETRY_EXCEEDED")
       ↔ (j.max_retries - j.retry_count + 1 ≤ evs.length ∧
          ∀ e ∈ evs.take (j.max_retries - j.retry_count + 1),
            e = WorkerEvent.failure true)) := by
  intro evs
  induction evs with
  | nil =>
      intro j hterm _hle
      constructor
      · intro ⟨h1, _⟩
        rw [show runJob j [] = j from rfl] at h1
        rw [h1] at hterm
        simp [isTerminal] at hterm
      · intro ⟨h1, _⟩
        simp at h1
  | cons e evs ih =>
      intro j hterm hle
      have hstep : runJob j (e :: evs) = runJob (stepJob j e) evs := rfl
      have htake : ∀ (x : WorkerEvent) (xs : List WorkerEvent),
          List.take (j.max_retries - j.retry_count + 1) (x :: xs) =
            x :: List.take (j.max_retries - j.retry_count) xs := by
        intro x xs
        rw [List.take_succ_cons]
      cases e with
      | success =>
          have habs : runJob j (WorkerEvent.success :: evs) =
              { j with status := "DONE" } := by
            rw [hstep, stepJob_success j hterm]
            exact runJob_terminal _ (by simp [handleSuccess, isTerminal]) evs
          rw [habs]
          constructor
          · intro ⟨h1, _⟩; simp at h1
          · intro ⟨_, hall⟩
            have := hall WorkerEvent.success
              (by rw [htake]; exact List.mem_cons_self _ _)
            simp at this
      | failure rb =>
          cases rb with
          | false =>
              have habs : runJob j (WorkerEvent.failure false :: evs) =
                  { j with status := "FAILED_PERMANENT",
                           last_error_kind := some "PERMANENT" } := by
                rw [hstep, stepJob_failure j false hterm, handleError_permanent]
                exact runJob_terminal _ (by simp [isTerminal]) evs
              rw [habs]
              constructor
              · intro ⟨_, h2⟩; simp at h2
              · intro ⟨_, hall⟩
                have := hall (WorkerEvent.failure false)
                  (by rw [htake]; exact List.mem_cons_self _ _)
                simp at this
          | true =>
              by_cases hlt : j.retry_count < j.max_retries
              · set j' : JobSt :=
                  { j with status := "RETRY_WAIT", retry_count := j.retry_count + 1, last_error_kind := some "RETRYABLE" } with hjdef
                have hstep2 : runJob j (WorkerEvent.failure true :: evs) =
                    runJob j' evs := by
                  rw [hstep, stepJob_failure j true hterm, handleError_retry j hlt]
                have hterm' : isTerminal j'.status = false := by
                  rw [hjdef]; rfl
                have hle' : j'.retry_count ≤ j'.max_retries := by
                  rw [hjdef]; simpa using hlt
                have hmr : j'.max_retries = j.max_retries := by
                  rw [hjdef]
                have hrc : j'.retry_count = j.retry_count + 1 := by
                  rw [hjdef]
                rw [hstep2, ih j' hterm' hle', hmr, hrc]
                have harith : j.max_retries - j.retry_count =
                    j.max_retries - (j.retry_count + 1) + 1 := by omega
                simp only [List.length_cons]
                constructor
                · intro ⟨h1, h2⟩
                  refine ⟨by omega, ?_⟩
                  intro x hx
                  rw [htake] at hx
                  rcases List.mem_cons.mp hx with hx | hx
                  · rw [hx]
                  · apply h2
                    rw [harith] at hx
                    exact hx
                · intro ⟨h1, h2⟩
                  refine ⟨by omega, ?_⟩
                  intro x hx
                  apply h2
                  rw [htake]
                  apply List.mem_cons_of_mem
                  rw [harith]
                  exact hx
              · have habs : runJob j (WorkerEvent.failure true :: evs) =
                    { j with status := "FAILED_PERMANENT",
                             last_error_kind := some "RETRY_EXCEEDED" } := by
                  rw [hstep, stepJob_failure j true hterm, handleError_exceeded j hlt]
                  exact runJob_terminal _ (by simp [isTerminal]) evs
                rw [habs]
                have hone : j.max_retries - j.retry_count + 1 = 1 := by omega
                rw [hone]
                constructor
                · intro _
                  refine ⟨by simp, ?_⟩
                  intro x hx
                  rw [List.take_succ_cons, List.take_zero] at hx
                  simpa using hx
                · intro _
                  exact ⟨rfl, rfl⟩

/-- C2: a retryable error handled at `retry_count ≥ max_retries` makes the
job FAILED_PERMANENT with last-error kind RETRY_EXCEEDED and at
`retry_count < max_retries` makes it RETRY_WAIT with the count incremented;
`retry_count ≤ max_retries` always holds from a fresh job; and a fresh job
ends FAILED_PERMANENT with kind RETRY_EXCEEDED iff it experiences exactly
`max_retries + 1` retryable failures with no intervening success (its
first `max_retries + 1` resolutions are all retryable failures). -/
theorem retry_budget_spec :
    (∀ j : JobSt,
       (j.max_retries ≤ j.retry_count →
          handleError j true =
            { j with status := "FAILED_PERMANENT",
                     last_error_kind := some "RETRY_EXCEEDED" })
       ∧ (j.retry_count < j.max_retries →
          handleError j true =
            { j with status := "RETRY_WAIT",
                     retry_count := j.retry_count + 1,
                     last_error_kind := some "RETRYABLE" }))
    ∧ (∀ (m : Nat) (evs : List WorkerEvent),
        (runJob (freshJob m) evs).retry_count ≤ m)
    ∧ (∀ (m : Nat) (evs : List WorkerEvent),
        ((runJob (freshJob m) evs).status = "FAILED_PERMANENT" ∧
         (runJob (freshJob m) evs).last_error_kind = some "RETRY_EXCEEDED")
        ↔ (m + 1 ≤ evs.length ∧
           ∀ e ∈ evs.take (m + 1), e = WorkerEvent.failure true)) := by
  refine ⟨?_, ?_, ?_⟩
  · intro j
    exact ⟨fun hge => handleError_exceeded j (by omega),
           fun hlt => handleError_retry j hlt⟩
  · intro m evs
    have h := runJob_retry_le evs (freshJob m) (Nat.zero_le _)
    have hm : (runJob (freshJob m) evs).max_retries = m := h.2
    rw [hm] at h
    exact h.1
  · intro m evs
    have h := runJob_retry_exceeded_char evs (freshJob m)
      (by simp [freshJob, isTerminal]) (Nat.zero_le _)
    simpa [freshJob] using h

/-- Closed instance of `retry_budget_spec`. -/
theorem retry_budget_witness :
    handleError { status := "CLAIMED", retry_count := 2, max_retries := 2,
                  last_error_kind := none } true =
      { status := "FAILED_PERMANENT", retry_count := 2, max_retries := 2,
        last_error_kind := some "RETRY_EXCEEDED" }
    ∧ ((runJob (freshJob 1)
          [WorkerEvent.failure true, WorkerEvent.failure true]).status
        = "FAILED_PERMANENT" ∧
       (runJob (freshJob 1)
          [WorkerEvent.failure true, WorkerEvent.failure true]).last_error_kind
        = some "RETRY_EXCEEDED") :=
  ⟨(retry_budget_spec.1 _).1 (le_refl 2),
   (retry_budget_spec.2.2 1
      [WorkerEvent.failure true, WorkerEvent.failure true]).mpr
     ⟨by decide, by decide⟩⟩

/-- The existence check of `create_job` as a proposition. -/
theorem create_job_exists_iff (jobs : List Job) (e : String) :
    (jobs.any (fun j => j.expression == e &&
        nonTerminalStatuses.contains j.status) = true)
    ↔ ∃ j ∈ jobs, j.expression = e ∧ j.status ∈ nonTerminalStatuses := by
  rw [List.any_eq_true]
  constructor
  · rintro ⟨j, hj, hcond⟩
    rw [Bool.and_eq_true, beq_iff_eq] at hcond
    exact ⟨j, hj, hcond.1, List.elem_iff.mp hcond.2⟩
  · rintro ⟨j, hj, he, hst⟩
    exact ⟨j, hj, by rw [Bool.and_eq_true, beq_iff_eq]
                     exact ⟨he, List.elem_iff.mpr hst⟩⟩

/-- `liveCount` distributes over append. -/
theorem liveCount_append (xs ys : List Job) (e : String) :
    liveCount (xs ++ ys) e = liveCount xs e + liveCount ys e := by
  simp [liveCount, List.filter_append]

/-- C7: `create_job` is a no-op returning `none` when a job for the
expression exists in a non-terminal status; otherwise it appends exactly
one fresh QUEUED job (priority 0, retry_count 0, max_retries 5,
next_run_at = now) and returns its id; it preserves the at-most-one-live
invariant, and any sequence of enqueues from an empty store leaves at most
one non-terminal job per expression. -/
theorem create_job_spec :
    (∀ (jobs : List Job) (e reg un : String) (now newId : Int),
      ((∃ j ∈ jobs, j.expression = e ∧ j.status ∈ nonTerminalStatuses) →
        create_job jobs e reg un now newId = (none, jobs))
      ∧ ((∀ j ∈ jobs, ¬ (j.expression = e ∧ j.status ∈ nonTerminalStatuses)) →
        create_job jobs e reg un now newId =
          (some newId, jobs ++ [newJob newId e reg un now]))
      ∧ ((newJob newId e reg un now).status = "QUEUED"
         ∧ (newJob newId e reg un now).priority = 0
         ∧ (newJob newId e reg un now).retry_count = 0
         ∧ (newJob newId e reg un now).max_retries = 5
         ∧ (newJob newId e reg un now).next_run_at = now)
      ∧ (∀ e2, liveCount jobs e2 ≤ 1 →
          liveCount (create_job jobs e reg un now newId).2 e2 ≤ 1))
    ∧ (∀ (reqs : List EnqueueReq) (e2 : String),
        liveCount (enqueueAll [] reqs) e2 ≤ 1) := by
  have hmain : ∀ (jobs : List Job) (e reg un : String) (now newId : Int),
      ((∃ j ∈ jobs, j.expression = e ∧ j.status ∈ nonTerminalStatuses) →
        create_job jobs e reg un now newId = (none, jobs))
      ∧ ((∀ j ∈ jobs, ¬ (j.expression = e ∧ j.status ∈ nonTerminalStatuses)) →
        create_job jobs e reg un now newId =
          (some newId, jobs ++ [newJob newId e reg un now]))
      ∧ ((newJob newId e reg un now).status = "QUEUED"
         ∧ (newJob newId e reg un now).priority = 0
         ∧ (newJob newId e reg un now).retry_count = 0
         ∧ (newJob newId e reg un now).max_retries = 5
         ∧ (newJob newId e reg un now).next_run_at = now)
      ∧ (∀ e2, liveCount jobs e2 ≤ 1 →
          liveCount (create_job jobs e reg un now newId).2 e2 ≤ 1) := by
    intro jobs e reg un now newId
    refine ⟨?_, ?_, ⟨rfl, rfl, rfl, rfl, rfl⟩, ?_⟩
    · intro hex
      rw [create_job, if_pos ((create_job_exists_iff jobs e).mpr hex)]
    · intro hnone
      rw [create_job, if_neg]
      intro hany
      obtain ⟨j, hj, he, hst⟩ := (create_job_exists_iff jobs e).mp hany
      exact hnone j hj ⟨he, hst⟩
    · intro e2 hle
      by_cases hany : jobs.any (fun j => j.expression == e &&
          nonTerminalStatuses.contains j.status) = true
      · rw [create_job, if_pos hany]
        exact hle
      · rw [create_job, if_neg hany]
        have hnone : ∀ j ∈ jobs,
            ¬ (j.expression = e ∧ j.status ∈ nonTerminalStatuses) := by
          intro j hj hcond
          exact hany ((create_job_exists_iff jobs e).mpr ⟨j, hj, hcond⟩)
        show liveCount (jobs ++ [newJob newId e reg un now]) e2 ≤ 1
        rw [liveCount_append]
        by_cases he2 : e2 = e
        · subst he2
          have hz : liveCount jobs e2 = 0 := by
            rw [liveCount, List.length_eq_zero, List.filter_eq_nil]
            intro j hj
            rw [Bool.not_eq_true, Bool.and_eq_false_iff]
            by_cases hexp : j.expression = e2
            · right
              cases hst : nonTerminalStatuses.contains j.status
              · rfl
              · exact absurd ⟨hexp, List.elem_iff.mp hst⟩ (hnone j hj)
            · left
              simpa using hexp
          rw [hz]
          have : liveCount [newJob newId e2 reg un now] e2 ≤ 1 := by
            rw [liveCount]
            apply le_trans (List.length_filter_le _ _)
            simp
          omega
        · have hz : liveCount [newJob newId e reg un now] e2 = 0 := by
            rw [liveCount, List.length_eq_zero, List.filter_eq_nil]
            intro j hj
            simp at hj
            subst hj
            simp [newJob]
            intro h
            exact absurd h.symm he2
          omega
  refine ⟨hmain, ?_⟩
  have hgen : ∀ (reqs : List EnqueueReq) (jobs : List Job),
      (∀ e2, liveCount jobs e2 ≤ 1) →
      ∀ e2, liveCount (enqueueAll jobs reqs) e2 ≤ 1 := by
    intro reqs
    induction reqs with
    | nil => intro jobs h e2; exact h e2
    | cons r reqs ih =>
        intro jobs h e2
        rw [enqueueAll]
        apply ih
        intro e3
        exact (hmain jobs r.expression r.region r.univ r.now r.newId).2.2.2 e3 (h e3)
  intro reqs e2
  exact hgen reqs [] (by intro e3; rw [liveCount]; simp) e2

/-- Closed instance of `create_job_spec`. -/
theorem create_job_spec_witness :
    create_job [] "rank(close)" "CHN" "TOP2000U" 100 1 =
      (some 1, [newJob 1 "rank(close)" "CHN" "TOP2000U" 100])
    ∧ create_job [newJob 1 "rank(close)" "CHN" "TOP2000U" 100]
        "rank(close)" "CHN" "TOP2000U" 105 2 =
      (none, [newJob 1 "rank(close)" "CHN" "TOP2000U" 100]) :=
  ⟨(create_job_spec.1 [] "rank(close)" "CHN" "TOP2000U" 100 1).2.1
     (by intro j hj; simp at hj),
   (create_job_spec.1 [newJob 1 "rank(close)" "CHN" "TOP2000U" 100]
      "rank(close)" "CHN" "TOP2000U" 105 2).1
     ⟨newJob 1 "rank(close)" "CHN" "TOP2000U" 100, by simp, rfl, by decide⟩⟩

/-- `claimBetter a b = false` spelled out: `b` does not sort strictly
before `a` in `ORDER BY priority DESC, created_at ASC`. -/
theorem claimBetter_false_iff (a b : Job) :
    claimBetter a b = false ↔
      (b.priority ≤ a.priority ∧
       (b.priority = a.priority → a.created_at ≤ b.created_at)) := by
  rw [claimBetter, Bool.or_eq_false_iff, Bool.and_eq_false_iff]
  simp only [decide_eq_false_iff_not, not_lt, beq_eq_false_iff_ne, ne_eq]
  constructor
  · rintro ⟨h1, h2 | h2⟩
    · exact ⟨h1, fun he => absurd he h2⟩
    · exact ⟨h1, fun _ => h2⟩
  · rintro ⟨h1, h2⟩
    refine ⟨h1, ?_⟩
    by_cases he : b.priority = a.priority
    · exact Or.inr (h2 he)
    · exact Or.inl he

/-- `claimBetter a b = true` spelled out. -/
theorem claimBetter_true_iff (a b : Job) :
    claimBetter a b = true ↔
      (a.priority < b.priority ∨
       (b.priority = a.priority ∧ b.created_at < a.created_at)) := by
  rw [claimBetter, Bool.or_eq_true, Bool.and_eq_true]
  simp [decide_eq_true_iff]

/-- The sort order is reflexive as a non-strict relation. -/
theorem claimBetter_self (a : Job) : claimBetter a a = false := by
  rw [claimBetter_false_iff]
  exact ⟨le_refl _, fun _ => le_refl _⟩

/-- Transitivity of domination. -/
theorem claimBetter_trans (c b k : Job)
    (h1 : claimBetter c b = false) (h2 : claimBetter b k = false) :
    claimBetter c k = false := by
  rw [claimBetter_false_iff] at h1 h2 ⊢
  obtain ⟨h1a, h1b⟩ := h1
  obtain ⟨h2a, h2b⟩ := h2
  refine ⟨le_trans h2a h1a, fun he => ?_⟩
  have heb : b.priority = c.priority := by omega
  have hkb : k.priority = b.priority := by omega
  have := h1b heb
  have := h2b hkb
  omega

/-- A strictly better row dominates the one it replaces. -/
theorem claimBetter_asymm (b c : Job) (h : claimBetter b c = true) :
    claimBetter c b = false := by
  rw [claimBetter_true_iff] at h
  rw [claimBetter_false_iff]
  rcases h with h | ⟨h1, h2⟩
  · exact ⟨le_of_lt h, fun he => absurd he (by omega)⟩
  · exact ⟨le_of_eq h1.symm, fun _ => le_of_lt h2⟩

/-- A strictly better row inherits the dominations of the one it
replaces. -/
theorem claimBetter_switch (b c k : Job)
    (h1 : claimBetter b c = true) (h2 : claimBetter b k = false) :
    claimBetter c k = false := by
  rw [claimBetter_true_iff] at h1
  rw [claimBetter_false_iff] at h2 ⊢
  obtain ⟨h2a, h2b⟩ := h2
  rcases h1 with h1 | ⟨h1a, h1b⟩
  · exact ⟨by omega, fun he => absurd he (by omega)⟩
  · refine ⟨by omega, fun he => ?_⟩
    have := h2b (by omega)
    omega

/-- The best-row fold keeps a member that dominates everything seen. -/
theorem foldl_pickBest_spec :
    ∀ (l : List Job) (b : Job), ∃ c, l.foldl pickBest (some b) = some c
      ∧ (c = b ∨ c ∈ l)
      ∧ claimBetter c b = false
      ∧ ∀ k ∈ l, claimBetter c k = false := by
  intro l
  induction l with
  | nil =>
      intro b
      exact ⟨b, rfl, Or.inl rfl, claimBetter_self b, by simp⟩
  | cons j l ih =>
      intro b
      have hfold : (j :: l).foldl pickBest (some b) =
          l.foldl pickBest (if claimBetter b j then some j else some b) := rfl
      by_cases hbj : claimBetter b j = true
      · obtain ⟨c, hc, hmem, hcb, hall⟩ := ih j
        refine ⟨c, ?_, ?_, ?_, ?_⟩
        · rw [hfold, if_pos hbj]; exact hc
        · rcases hmem with h | h
          · exact Or.inr (h ▸ List.mem_cons_self j l)
          · exact Or.inr (List.mem_cons_of_mem j h)
        · exact claimBetter_trans c j b hcb (claimBetter_asymm b j hbj)
        · intro k hk
          rcases List.mem_cons.mp hk with hk | hk
          · exact hk ▸ hcb
          · exact hall k hk
      · have hbj' : claimBetter b j = false := by
          cases h : claimBetter b j
          · rfl
          · exact absurd h hbj
        obtain ⟨c, hc, hmem, hcb, hall⟩ := ih b
        refine ⟨c, ?_, ?_, hcb, ?_⟩
        · rw [hfold, if_neg hbj]; exact hc
        · rcases hmem with h | h
          · exact Or.inl h
          · exact Or.inr (List.mem_cons_of_mem j h)
        · intro k hk
          rcases List.mem_cons.mp hk with hk | hk
          · exact hk ▸ claimBetter_trans c b j hcb hbj'
          · exact hall k hk

/-- `selectNext` returns `none` exactly when no row is eligible. -/
theorem selectNext_none_iff (jobs : List Job) (now : Int) :
    selectNext jobs now = none ↔ ∀ j ∈ jobs, claimEligible now j = false := by
  rw [selectNext]
  constructor
  · intro h j hj
    cases hf : jobs.filter (claimEligible now) with
    | nil =>
        have := List.filter_eq_nil.mp hf j hj
        cases he : claimEligible now j
        · rfl
        · exact absurd he this
    | cons x l =>
        rw [hf] at h
        have hx : (x :: l).foldl pickBest none =
            l.foldl pickBest (some x) := rfl
        obtain ⟨c, hc, _, _, _⟩ := foldl_pickBest_spec l x
        rw [hx, hc] at h
        cases h
  · intro h
    have hf : jobs.filter (claimEligible now) = [] := by
      apply List.filter_eq_nil.mpr
      intro j hj
      rw [h j hj]
      simp
    rw [hf]
    rfl

/-- What `selectNext` returns is an eligible row dominating every eligible
row. -/
theorem selectNext_some_spec (jobs : List Job) (now : Int) (j : Job)
    (h : selectNext jobs now = some j) :
    j ∈ jobs ∧ claimEligible now j = true ∧
    ∀ k ∈ jobs, claimEligible now k = true → claimBetter j k = false := by
  rw [selectNext] at h
  cases hf : jobs.filter (claimEligible now) with
  | nil => rw [hf] at h; cases h
  | cons x l =>
      rw [hf] at h
      have hx : (x :: l).foldl pickBest none = l.foldl pickBest (some x) := rfl
      obtain ⟨c, hc, hmem, hcb, hall⟩ := foldl_pickBest_spec l x
      rw [hx, hc] at h
      cases h
      have hjf : j ∈ jobs.filter (claimEligible now) := by
        rw [hf]
        rcases hmem with hm | hm
        · exact hm ▸ List.mem_cons_self x l
        · exact List.mem_cons_of_mem x hm
      have hj := List.mem_filter.mp hjf
      refine ⟨hj.1, hj.2, ?_⟩
      intro k hk hke
      have hkf : k ∈ jobs.filter (claimEligible now) :=
        List.mem_filter.mpr ⟨hk, hke⟩
      rw [hf] at hkf
      rcases List.mem_cons.mp hkf with hkx | hkl
      · exact hkx ▸ hcb
      · exact hall k hkl

/-- The stamped row keeps its id. -/
theorem claimStamp_id (wid : String) (now2 : Int) (x : Job) :
    (claimStamp wid now2 x).id = x.id := rfl

/-- Re-fetch by id after the in-transaction update finds the stamped row
(ids are unique: they come from the table's primary key). -/
theorem find_updated (wid : String) (now2 : Int) :
    ∀ (jobs : List Job) (j : Job), j ∈ jobs →
      (∀ x ∈ jobs, x.id = j.id → x = j) →
      (jobs.map (fun x => if x.id == j.id then claimStamp wid now2 x else x)).find?
          (fun x => x.id == j.id) = some (claimStamp wid now2 j) := by
  intro jobs
  induction jobs with
  | nil => intro j hj; cases hj
  | cons x rest ih =>
      intro j hj hinj
      by_cases hx : x.id = j.id
      · have hxj : x = j := hinj x (List.mem_cons_self x rest) hx
        subst hxj
        have h1 : (x :: rest).map
            (fun y => if y.id == x.id then claimStamp wid now2 y else y) =
            claimStamp wid now2 x :: rest.map
              (fun y => if y.id == x.id then claimStamp wid now2 y else y) := by
          simp
        rw [h1]
        apply List.find?_cons_of_pos
        rw [claimStamp_id]
        exact beq_self_eq_true x.id
      · have h1 : (x :: rest).map
            (fun y => if y.id == j.id then claimStamp wid now2 y else y) =
            x :: rest.map
              (fun y => if y.id == j.id then claimStamp wid now2 y else y) := by
          simp [hx]
        rw [h1]
        rw [List.find?_cons_of_neg _ (by simpa using hx)]
        apply ih
        · rcases List.mem_cons.mp hj with hjx | hjr
          · exact absurd (congrArg Job.id hjx).symm hx
          · exact hjr
        · intro y hy
          exact hinj y (List.mem_cons_of_mem x hy)

/-- C1: with the (primary-key) job ids distinct, `claim_next` returns
`none` and leaves the store unchanged when no job is eligible (status
QUEUED or RETRY_WAIT and `next_run_at ≤ now`); when an eligible job
exists, it returns an eligible job of maximal priority and, within that
priority, minimal `created_at`, stamped CLAIMED with `claimed_by`,
`claimed_at` and `updated_at`, and the store differs only at that job. -/
theorem claim_next_spec :
    ∀ (jobs : List Job) (wid : String) (now now2 : Int),
      (jobs.map Job.id).Nodup →
      ((∀ j ∈ jobs, claimEligible now j = false) →
          claim_next jobs wid now now2 = (none, jobs))
      ∧ (∀ j0 ∈ jobs, claimEligible now j0 = true →
          ∃ j ∈ jobs, claimEligible now j = true
            ∧ (∀ k ∈ jobs, claimEligible now k = true →
                 k.priority ≤ j.priority ∧
                 (k.priority = j.priority → j.created_at ≤ k.created_at))
            ∧ (claim_next jobs wid now now2).1 = some (claimStamp wid now2 j)
            ∧ (claim_next jobs wid now now2).2 =
                jobs.map (fun x => if x.id == j.id then claimStamp wid now2 x else x)) := by
  intro jobs wid now now2 hnodup
  constructor
  · intro hnone
    rw [claim_next, (selectNext_none_iff jobs now).mpr hnone]
  · intro j0 hj0 hj0e
    cases hsel : selectNext jobs now with
    | none =>
        have := (selectNext_none_iff jobs now).mp hsel j0 hj0
        rw [hj0e] at this
        cases this
    | some j =>
        obtain ⟨hjmem, hje, hjdom⟩ := selectNext_some_spec jobs now j hsel
        refine ⟨j, hjmem, hje, ?_, ?_, ?_⟩
        · intro k hk hke
          have := hjdom k hk hke
          rw [claimBetter_false_iff] at this
          exact this
        · rw [claim_next, hsel]
          simp only
          rw [find_updated wid now2 jobs j hjmem
            (fun x hx hid => List.inj_on_of_nodup_map hnodup hx hjmem hid)]
        · rw [claim_next, hsel]

/-- Closed instance of `claim_next_spec`. -/
theorem claim_next_spec_witness :
    claim_next [newJob 1 "alpha1" "CHN" "TOP2000U" 50] "w1" 60 61 =
      (some (claimStamp "w1" 61 (newJob 1 "alpha1" "CHN" "TOP2000U" 50)),
       [claimStamp "w1" 61 (newJob 1 "alpha1" "CHN" "TOP2000U" 50)]) := by
  obtain ⟨j, hjmem, _, _, h1, h2⟩ :=
    ((claim_next_spec [newJob 1 "alpha1" "CHN" "TOP2000U" 50] "w1" 60 61)
        (by decide)).2
      (newJob 1 "alpha1" "CHN" "TOP2000U" 50) (List.mem_cons_self _ _) (by decide)
  have hj : j = newJob 1 "alpha1" "CHN" "TOP2000U" 50 := by
    simpa using hjmem
  subst hj
  rw [Prod.ext_iff]
  refine ⟨h1, ?_⟩
  rw [h2]
  simp

/-- The whitespace-skip scan finds `(` exactly when the list is some
whitespace followed by `(`. -/
theorem nextNonWsIsLParen_iff (l : List Char) :
    nextNonWsIsLParen l = true ↔
      ∃ v w, l = v ++ '(' :: w ∧ ∀ c ∈ v, asciiWs c = true := by
  induction l with
  | nil =>
      constructor
      · intro h; cases h
      · rintro ⟨v, w, hvw, _⟩
        cases v <;> cases hvw
  | cons c rest ih =>
      by_cases hws : asciiWs c = true
      · rw [show nextNonWsIsLParen (c :: rest) = nextNonWsIsLParen rest by
          rw [nextNonWsIsLParen]; rw [if_pos hws]]
        rw [ih]
        constructor
        · rintro ⟨v, w, hvw, hv⟩
          refine ⟨c :: v, w, by rw [hvw]; simp, ?_⟩
          intro x hx
          rcases List.mem_cons.mp hx with hx | hx
          · exact hx ▸ hws
          · exact hv x hx
        · rintro ⟨v, w, hvw, hv⟩
          cases v with
          | nil =>
              cases hvw
              rw [show asciiWs '(' = false from rfl] at hws
              cases hws
          | cons c2 v =>
              obtain ⟨hc2, hvw'⟩ := List.cons.injEq _ _ _ _ ▸ hvw
              injection hvw with hc2 hvw'
              exact ⟨v, w, hvw', fun x hx => hv x (List.mem_cons_of_mem _ hx)⟩
      · have hws' : asciiWs c = false := by
          cases h : asciiWs c
          · rfl
          · exact absurd h hws
        rw [show nextNonWsIsLParen (c :: rest) = (c == '(') by
          rw [nextNonWsIsLParen]; rw [if_neg hws]]
        constructor
        · intro h
          exact ⟨[], rest, by rw [beq_iff_eq.mp h]; rfl, by simp⟩
        · rintro ⟨v, w, hvw, hv⟩
          cases v with
          | nil =>
              injection hvw with h1 _
              rw [h1]
              exact beq_self_eq_true '('
          | cons c2 v =>
              injection hvw with h1 _
              exact absurd (h1 ▸ hv c2 (List.mem_cons_self c2 v)) (h1 ▸ hws)

/-- `hasRPLP` finds exactly the `) whitespace* (` patterns. -/
theorem hasRPLP_iff (l : List Char) :
    hasRPLP l = true ↔
      ∃ u v w, l = u ++ ')' :: v ++ '(' :: w ∧ ∀ c ∈ v, asciiWs c = true := by
  induction l with
  | nil =>
      constructor
      · intro h; cases h
      · rintro ⟨u, v, w, huvw, _⟩
        cases u <;> cases huvw
  | cons c rest ih =>
      rw [show hasRPLP (c :: rest) =
          ((c == ')' && nextNonWsIsLParen rest) || hasRPLP rest) from rfl]
      rw [Bool.or_eq_true, Bool.and_eq_true, ih, nextNonWsIsLParen_iff]
      constructor
      · rintro (⟨hc, v, w, hvw, hv⟩ | ⟨u, v, w, hvw, hv⟩)
        · exact ⟨[], v, w, by rw [beq_iff_eq.mp hc, hvw]; simp, hv⟩
        · exact ⟨c :: u, v, w, by rw [hvw]; simp, hv⟩
      · rintro ⟨u, v, w, hvw, hv⟩
        cases u with
        | nil =>
            injection hvw with h1 h2
            exact Or.inl ⟨by rw [h1]; exact beq_self_eq_true ')', v, w, h2, hv⟩
        | cons c2 u =>
            injection hvw with h1 h2
            exact Or.inr ⟨u, v, w, h2, hv⟩

/-- The whitespace-skip scan finds `)` exactly when the list is some
whitespace followed by `)`. -/
theorem nextNonWsIsRParen_iff (l : List Char) :
    nextNonWsIsRParen l = true ↔
      ∃ v w, l = v ++ ')' :: w ∧ ∀ c ∈ v, asciiWs c = true := by
  induction l with
  | nil =>
      constructor
      · intro h; cases h
      · rintro ⟨v, w, hvw, _⟩
        cases v <;> cases hvw
  | cons c rest ih =>
      by_cases hws : asciiWs c = true
      · rw [show nextNonWsIsRParen (c :: rest) = nextNonWsIsRParen rest by
          rw [nextNonWsIsRParen]; rw [if_pos hws]]
        rw [ih]
        constructor
        · rintro ⟨v, w, hvw, hv⟩
          refine ⟨c :: v, w, by rw [hvw]; simp, ?_⟩
          intro x hx
          rcases List.mem_cons.mp hx with hx | hx
          · exact hx ▸ hws
          · exact hv x hx
        · rintro ⟨v, w, hvw, hv⟩
          cases v with
          | nil =>
              cases hvw
              rw [show asciiWs ')' = false from rfl] at hws
              cases hws
          | cons c2 v =>
              injection hvw with hc2 hvw'
              exact ⟨v, w, hvw', fun x hx => hv x (List.mem_cons_of_mem _ hx)⟩
      · have hws' : asciiWs c = false := by
          cases h : asciiWs c
          · rfl
          · exact absurd h hws
        rw [show nextNonWsIsRParen (c :: rest) = (c == ')') by
          rw [nextNonWsIsRParen]; rw [if_neg hws]]
        constructor
        · intro h
          exact ⟨[], rest, by rw [beq_iff_eq.mp h]; rfl, by simp⟩
        · rintro ⟨v, w, hvw, hv⟩
          cases v with
          | nil =>
              injection hvw with h1 _
              rw [h1]
              exact beq_self_eq_true ')'
          | cons c2 v =>
              injection hvw with h1 _
              exact absurd (h1 ▸ hv c2 (List.mem_cons_self c2 v)) (h1 ▸ hws)

/-- `hasTrailingComma` finds exactly the `, whitespace* )` patterns. -/
theorem hasTrailingComma_iff (l : List Char) :
    hasTrailingComma l = true ↔
      ∃ u v w, l = u ++ ',' :: v ++ ')' :: w ∧ ∀ c ∈ v, asciiWs c = true := by
  induction l with
  | nil =>
      constructor
      · intro h; cases h
      · rintro ⟨u, v, w, huvw, _⟩
        cases u <;> cases huvw
  | cons c rest ih =>
      rw [show hasTrailingComma (c :: rest) =
          ((c == ',' && nextNonWsIsRParen rest) || hasTrailingComma rest) from rfl]
      rw [Bool.or_eq_true, Bool.and_eq_true, ih, nextNonWsIsRParen_iff]
      constructor
      · rintro (⟨hc, v, w, hvw, hv⟩ | ⟨u, v, w, hvw, hv⟩)
        · exact ⟨[], v, w, by rw [beq_iff_eq.mp hc, hvw]; simp, hv⟩
        · exact ⟨c :: u, v, w, by rw [hvw]; simp, hv⟩
      · rintro ⟨u, v, w, hvw, hv⟩
        cases u with
        | nil =>
            injection hvw with h1 h2
            exact Or.inl ⟨by rw [h1]; exact beq_self_eq_true ',', v, w, h2, hv⟩
        | cons c2 u =>
            injection hvw with h1 h2
            exact Or.inr ⟨u, v, w, h2, hv⟩

/-- C8 counterexample: `winsorize()` has zero positional arguments, which
is not exactly one, yet `validate_prequeue` accepts it: the code only
rejects more than one positional argument. -/
theorem validate_prequeue_winsorize_zero_cex :
    validate_prequeue "winsorize()" = .ok ()
    ∧ (Except.ok () : Except String Unit) ≠ .error "winsorize_arity" :=
  ⟨rfl, fun h => Except.noConfusion h⟩

/-- C8 amended: `validate_prequeue` rejects with `unexpected_right_paren`
any expression whose trimmed form contains `)` followed, modulo
whitespace, by `(`; failing that, with `trailing_comma` any expression
containing `,` immediately (modulo whitespace) before `)`; the
winsorize-arity check fires only for more than one positional argument
(named `key=value` arguments do not count, zero positional arguments are
accepted); on the spec's concrete inputs it returns the stated results. -/
theorem validate_prequeue_spec :
    (∀ s : String,
       (∃ u v w, trimChars s.toList = u ++ ')' :: v ++ '(' :: w ∧
          ∀ c ∈ v, asciiWs c = true) →
       validate_prequeue s = .error "unexpected_right_paren")
    ∧ (∀ s : String,
       hasRPLP (trimChars s.toList) = false →
       (∃ u v w, trimChars s.toList = u ++ ',' :: v ++ ')' :: w ∧
          ∀ c ∈ v, asciiWs c = true) →
       validate_prequeue s = .error "trailing_comma")
    ∧ validate_prequeue "ts_sum(close,)" = .error "trailing_comma"
    ∧ validate_prequeue "a)(b)" = .error "unexpected_right_paren"
    ∧ validate_prequeue "winsorize(x, 0.1)" = .error "winsorize_arity"
    ∧ validate_prequeue "winsorize(ts_rank(x,20), std=4)" = .ok ()
    ∧ validate_prequeue "winsorize(std=4)" = .ok () := by
  refine ⟨?_, ?_, rfl, rfl, rfl, rfl, rfl⟩
  · intro s hex
    rw [validate_prequeue, validateCore,
      if_pos ((hasRPLP_iff (trimChars s.toList)).mpr hex)]
  · intro s hno hex
    rw [validate_prequeue, validateCore, if_neg (by rw [hno]; simp),
      if_pos ((hasTrailingComma_iff (trimChars s.toList)).mpr hex)]

/-- Closed instance of `validate_prequeue_spec`. -/
theorem validate_prequeue_spec_witness :
    validate_prequeue "a) (b)" = .error "unexpected_right_paren"
    ∧ validate_prequeue "f(a , )" = .error "trailing_comma" :=
  ⟨validate_prequeue_spec.1 "a) (b)"
     ⟨['a'], [' '], ['b', ')'], by decide, by decide⟩,
   validate_prequeue_spec.2.1 "f(a , )" (by decide)
     ⟨['f', '(', 'a', ' '], [' '], [], by decide, by decide⟩⟩

/-- Distinct keys compare `==`-false, as the condition proposition. -/
theorem notBeq (a b : String) (h : a ≠ b) : ¬ ((a == b) = true) :=
  fun hb => h (beq_iff_eq.mp hb)

/-- `List.lookup` at the head key. -/
theorem lookup_cons_self (k : String) (v : Json) (fs : List (String × Json)) :
    List.lookup k ((k, v) :: fs) = some v := by
  simp [List.lookup]

/-- `List.lookup` skips a head with a different key. -/
theorem lookup_cons_ne (k k' : String) (v : Json) (fs : List (String × Json))
    (h : k' ≠ k) : List.lookup k' ((k, v) :: fs) = List.lookup k' fs := by
  simp [List.lookup, beq_eq_false_iff_ne.mpr h]

/-- Looking up the key just written finds the new value. -/
theorem lookup_setField_self (fs : List (String × Json)) (k : String) (v : Json) :
    List.lookup k (setField fs k v) = some v := by
  induction fs with
  | nil =>
      show List.lookup k [(k, v)] = some v
      exact lookup_cons_self k v []
  | cons kv rest ih =>
      obtain ⟨k2, v2⟩ := kv
      rcases lt_trichotomy k k2 with hlt | heq | hgt
      · rw [setField, if_pos hlt]
        exact lookup_cons_self k v ((k2, v2) :: rest)
      · rw [setField, if_neg (by rw [heq]; exact lt_irrefl k2),
          if_pos (beq_iff_eq.mpr heq)]
        exact lookup_cons_self k v rest
      · rw [setField, if_neg (asymm hgt),
          if_neg (notBeq _ _ (ne_of_gt hgt))]
        rw [lookup_cons_ne k2 k v2 (setField rest k v) (ne_of_gt hgt)]
        exact ih

/-- Writing one key leaves the lookups of other keys unchanged. -/
theorem lookup_setField_ne (fs : List (String × Json)) (k k' : String)
    (v : Json) (h : k' ≠ k) :
    List.lookup k' (setField fs k v) = List.lookup k' fs := by
  induction fs with
  | nil =>
      show List.lookup k' [(k, v)] = List.lookup k' []
      exact lookup_cons_ne k k' v [] h
  | cons kv rest ih =>
      obtain ⟨k2, v2⟩ := kv
      rcases lt_trichotomy k k2 with hlt | heq | hgt
      · rw [setField, if_pos hlt]
        exact lookup_cons_ne k k' v ((k2, v2) :: rest) h
      · rw [setField, if_neg (by rw [heq]; exact lt_irrefl k2),
          if_pos (beq_iff_eq.mpr heq)]
        rw [lookup_cons_ne k k' v rest h,
          lookup_cons_ne k2 k' v2 rest (heq ▸ h)]
      · rw [setField, if_neg (asymm hgt),
          if_neg (notBeq _ _ (ne_of_gt hgt))]
        by_cases h2 : k' = k2
        · subst h2
          rw [lookup_cons_self k' v2 (setField rest k v),
            lookup_cons_self k' v2 rest]
        · rw [lookup_cons_ne k2 k' v2 (setField rest k v) h2,
            lookup_cons_ne k2 k' v2 rest h2, ih]

/-- Writing the same key twice keeps only the second write. -/
theorem setField_setField_same (fs : List (String × Json)) (k : String)
    (v w : Json) : setField (setField fs k v) k w = setField fs k w := by
  induction fs with
  | nil =>
      rw [setField, setField, setField]
      rw [if_neg (lt_irrefl k), if_pos (beq_self_eq_true k)]
  | cons kv rest ih =>
      obtain ⟨k2, v2⟩ := kv
      rw [setField]
      by_cases hlt : k < k2
      · rw [if_pos hlt]
        rw [setField, if_neg (lt_irrefl k), if_pos (beq_self_eq_true k)]
        rw [setField, if_pos hlt]
      · rw [if_neg hlt]
        by_cases heq : k = k2
        · rw [if_pos (beq_iff_eq.mpr heq)]
          rw [setField, if_neg (lt_irrefl k), if_pos (beq_self_eq_true k)]
          rw [setField, if_neg hlt, if_pos (beq_iff_eq.mpr heq)]
        · rw [if_neg (by simpa using heq)]
          rw [setField, if_neg hlt, if_neg (by simpa using heq)]
          rw [setField, if_neg hlt, if_neg (by simpa using heq), ih]

/-- Writes at distinct keys commute. -/
theorem setField_comm (k1 k2 : String) (v1 v2 : Json) (hne : k1 ≠ k2) :
    ∀ fs, setField (setField fs k1 v1) k2 v2 =
          setField (setField fs k2 v2) k1 v1 := by
  have hne' : k2 ≠ k1 := Ne.symm hne
  intro fs
  induction fs with
  | nil =>
      show setField [(k1, v1)] k2 v2 = setField [(k2, v2)] k1 v1
      rcases lt_trichotomy k1 k2 with h12 | h12 | h12
      · have l : setField [(k1, v1)] k2 v2 = [(k1, v1), (k2, v2)] := by
          rw [setField, if_neg (asymm h12), if_neg (notBeq k2 k1 hne')]
          rfl
        have r : setField [(k2, v2)] k1 v1 = [(k1, v1), (k2, v2)] := by
          rw [setField, if_pos h12]
        rw [l, r]
      · exact absurd h12 hne
      · have l : setField [(k1, v1)] k2 v2 = [(k2, v2), (k1, v1)] := by
          rw [setField, if_pos h12]
        have r : setField [(k2, v2)] k1 v1 = [(k2, v2), (k1, v1)] := by
          rw [setField, if_neg (asymm h12), if_neg (notBeq k1 k2 hne)]
          rfl
        rw [l, r]
  | cons kv rest ih =>
      obtain ⟨k3, v3⟩ := kv
      rcases lt_trichotomy k1 k3 with h13 | h13 | h13 <;>
        rcases lt_trichotomy k2 k3 with h23 | h23 | h23
      · -- k1 < k3, k2 < k3
        have i1 : setField ((k3, v3) :: rest) k1 v1 =
            (k1, v1) :: (k3, v3) :: rest := by rw [setField, if_pos h13]
        have i2 : setField ((k3, v3) :: rest) k2 v2 =
            (k2, v2) :: (k3, v3) :: rest := by rw [setField, if_pos h23]
        rw [i1, i2]
        rcases lt_trichotomy k1 k2 with h12 | h12 | h12
        · have l : setField ((k1, v1) :: (k3, v3) :: rest) k2 v2 =
              (k1, v1) :: setField ((k3, v3) :: rest) k2 v2 := by
            rw [setField, if_neg (asymm h12), if_neg (notBeq k2 k1 hne')]
          have r : setField ((k2, v2) :: (k3, v3) :: rest) k1 v1 =
              (k1, v1) :: (k2, v2) :: (k3, v3) :: rest := by
            rw [setField, if_pos h12]
          rw [l, r, i2]
        · exact absurd h12 hne
        · have l : setField ((k1, v1) :: (k3, v3) :: rest) k2 v2 =
              (k2, v2) :: (k1, v1) :: (k3, v3) :: rest := by
            rw [setField, if_pos h12]
          have r : setField ((k2, v2) :: (k3, v3) :: rest) k1 v1 =
              (k2, v2) :: setField ((k3, v3) :: rest) k1 v1 := by
            rw [setField, if_neg (asymm h12), if_neg (notBeq k1 k2 hne)]
          rw [l, r, i1]
      · -- k1 < k3, k2 = k3
        subst h23
        have i1 : setField ((k2, v3) :: rest) k1 v1 =
            (k1, v1) :: (k2, v3) :: rest := by rw [setField, if_pos h13]
        have i2 : setField ((k2, v3) :: rest) k2 v2 = (k2, v2) :: rest := by
          rw [setField, if_neg (lt_irrefl k2), if_pos (beq_self_eq_true k2)]
        rw [i1, i2]
        have l : setField ((k1, v1) :: (k2, v3) :: rest) k2 v2 =
            (k1, v1) :: setField ((k2, v3) :: rest) k2 v2 := by
          rw [setField, if_neg (asymm h13), if_neg (notBeq k2 k1 hne')]
        have r : setField ((k2, v2) :: rest) k1 v1 =
            (k1, v1) :: (k2, v2) :: rest := by
          rw [setField, if_pos h13]
        rw [l, r, i2]
      · -- k1 < k3 < k2
        have h12 : k1 < k2 := lt_trans h13 h23
        have i1 : setField ((k3, v3) :: rest) k1 v1 =
            (k1, v1) :: (k3, v3) :: rest := by rw [setField, if_pos h13]
        have i2 : setField ((k3, v3) :: rest) k2 v2 =
            (k3, v3) :: setField rest k2 v2 := by
          rw [setField, if_neg (asymm h23),
            if_neg (notBeq _ _ (ne_of_gt h23))]
        rw [i1, i2]
        have l : setField ((k1, v1) :: (k3, v3) :: rest) k2 v2 =
            (k1, v1) :: setField ((k3, v3) :: rest) k2 v2 := by
          rw [setField, if_neg (asymm h12), if_neg (notBeq k2 k1 hne')]
        have r : setField ((k3, v3) :: setField rest k2 v2) k1 v1 =
            (k1, v1) :: (k3, v3) :: setField rest k2 v2 := by
          rw [setField, if_pos h13]
        rw [l, r, i2]
      · -- k1 = k3, k2 < k3
        subst h13
        have i1 : setField ((k1, v3) :: rest) k1 v1 = (k1, v1) :: rest := by
          rw [setField, if_neg (lt_irrefl k1), if_pos (beq_self_eq_true k1)]
        have i2 : setField ((k1, v3) :: rest) k2 v2 =
            (k2, v2) :: (k1, v3) :: rest := by rw [setField, if_pos h23]
        rw [i1, i2]
        have l : setField ((k1, v1) :: rest) k2 v2 =
            (k2, v2) :: (k1, v1) :: rest := by rw [setField, if_pos h23]
        have r : setField ((k2, v2) :: (k1, v3) :: rest) k1 v1 =
            (k2, v2) :: setField ((k1, v3) :: rest) k1 v1 := by
          rw [setField, if_neg (asymm h23), if_neg (notBeq k1 k2 hne)]
        rw [l, r, i1]
      · -- k1 = k3 = k2 : impossible
        exact absurd (h13.trans h23.symm) hne
      · -- k1 = k3 < k2
        subst h13
        have i1 : setField ((k1, v3) :: rest) k1 v1 = (k1, v1) :: rest := by
          rw [setField, if_neg (lt_irrefl k1), if_pos (beq_self_eq_true k1)]
        have i2 : setField ((k1, v3) :: rest) k2 v2 =
            (k1, v3) :: setField rest k2 v2 := by
          rw [setField, if_neg (asymm h23), if_neg (notBeq k2 k1 hne')]
        rw [i1, i2]
        have l : setField ((k1, v1) :: rest) k2 v2 =
            (k1, v1) :: setField rest k2 v2 := by
          rw [setField, if_neg (asymm h23), if_neg (notBeq k2 k1 hne')]
        have r : setField ((k1, v3) :: setField rest k2 v2) k1 v1 =
            (k1, v1) :: setField rest k2 v2 := by
          rw [setField, if_neg (lt_irrefl k1), if_pos (beq_self_eq_true k1)]
        rw [l, r]
      · -- k2 < k3 < k1
        have h21 : k2 < k1 := lt_trans h23 h13
        have i1 : setField ((k3, v3) :: rest) k1 v1 =
            (k3, v3) :: setField rest k1 v1 := by
          rw [setField, if_neg (asymm h13),
            if_neg (notBeq _ _ (ne_of_gt h13))]
        have i2 : setField ((k3, v3) :: rest) k2 v2 =
            (k2, v2) :: (k3, v3) :: rest := by rw [setField, if_pos h23]
        rw [i1, i2]
        have l : setField ((k3, v3) :: setField rest k1 v1) k2 v2 =
            (k2, v2) :: (k3, v3) :: setField rest k1 v1 := by
          rw [setField, if_pos h23]
        have r : setField ((k2, v2) :: (k3, v3) :: rest) k1 v1 =
            (k2, v2) :: setField ((k3, v3) :: rest) k1 v1 := by
          rw [setField, if_neg (asymm h21), if_neg (notBeq k1 k2 hne)]
        rw [l, r, i1]
      · -- k3 = k2 < k1
        subst h23
        have i1 : setField ((k2, v3) :: rest) k1 v1 =
            (k2, v3) :: setField rest k1 v1 := by
          rw [setField, if_neg (asymm h13), if_neg (notBeq k1 k2 hne)]
        have i2 : setField ((k2, v3) :: rest) k2 v2 = (k2, v2) :: rest := by
          rw [setField, if_neg (lt_irrefl k2), if_pos (beq_self_eq_true k2)]
        rw [i1, i2]
        have l : setField ((k2, v3) :: setField rest k1 v1) k2 v2 =
            (k2, v2) :: setField rest k1 v1 := by
          rw [setField, if_neg (lt_irrefl k2), if_pos (beq_self_eq_true k2)]
        have r : setField ((k2, v2) :: rest) k1 v1 =
            (k2, v2) :: setField rest k1 v1 := by
          rw [setField, if_neg (asymm h13), if_neg (notBeq k1 k2 hne)]
        rw [l, r]
      · -- k3 < k1, k3 < k2
        have i1 : setField ((k3, v3) :: rest) k1 v1 =
            (k3, v3) :: setField rest k1 v1 := by
          rw [setField, if_neg (asymm h13),
            if_neg (notBeq _ _ (ne_of_gt h13))]
        have i2 : setField ((k3, v3) :: rest) k2 v2 =
            (k3, v3) :: setField rest k2 v2 := by
          rw [setField, if_neg (asymm h23),
            if_neg (notBeq _ _ (ne_of_gt h23))]
        rw [i1, i2]
        have l : setField ((k3, v3) :: setField rest k1 v1) k2 v2 =
            (k3, v3) :: setField (setField rest k1 v1) k2 v2 := by
          rw [setField, if_neg (asymm h23),
            if_neg (notBeq _ _ (ne_of_gt h23))]
        have r : setField ((k3, v3) :: setField rest k2 v2) k1 v1 =
            (k3, v3) :: setField (setField rest k2 v2) k1 v1 := by
          rw [setField, if_neg (asymm h13),
            if_neg (notBeq _ _ (ne_of_gt h13))]
        rw [l, r, ih]

/-- Unfolding: merging into a pair that is not object-object overwrites. -/
theorem deepMerge_not_both_obj (a v : Json)
    (h : ¬ (isObjB a = true ∧ isObjB v = true)) : deepMerge a v = v := by
  cases a <;> cases v <;> simp [deepMerge, isObjB] at h ⊢

/-- Unfolding: merging two objects merges their field lists. -/
theorem deepMerge_obj_obj (fa fb : List (String × Json)) :
    deepMerge (.obj fa) (.obj fb) = .obj (deepMergeFields fa fb) := by
  simp [deepMerge]

/-- Unfolding: no new fields leaves the old fields. -/
theorem deepMergeFields_nil (fa : List (String × Json)) :
    deepMergeFields fa [] = fa := by
  simp [deepMergeFields]

/-- Unfolding: one new field merges into its key, then the rest. -/
theorem deepMergeFields_cons (fa : List (String × Json)) (k : String)
    (bv : Json) (rest : List (String × Json)) :
    deepMergeFields fa ((k, bv) :: rest) =
      deepMergeFields (setField fa k (deepMerge ((List.lookup k fa).getD .null) bv)) rest := by
  simp [deepMergeFields]

/-- Unfolding: the empty work list returns the accumulated tree. -/
theorem mergeLoop_nil (a : Json) : mergeLoop a [] = a := by
  simp [mergeLoop]

/-- Unfolding: one work-list entry, by the object-object test. -/
theorem mergeLoop_cons (a : Json) (p : List String) (v : Json)
    (rest : List (List String × Json)) :
    mergeLoop a ((p, v) :: rest) =
      if isObjB (getPath (ensurePath a p) p) && isObjB v then
        mergeLoop (ensurePath a p)
          ((((fieldsOf v).map (fun kv => (p ++ [kv.1], kv.2))).reverse) ++ rest)
      else mergeLoop (setPath (ensurePath a p) p v) rest := by
  rw [mergeLoop]

/-- Unfolding: the fields of a literal object. -/
theorem fieldsOf_obj (fs : List (String × Json)) : fieldsOf (.obj fs) = fs := rfl

/-- Walking one key after the navigation mutation reads the navigated
child. -/
theorem getPath_ensure_cons (a : Json) (k : String) (p : List String) :
    getPath (ensurePath a (k :: p)) (k :: p) =
    getPath (ensurePath ((List.lookup k (fieldsOf a)).getD .null) p) p := by
  rw [ensurePath, getPath]
  simp only [fieldsOf_obj, lookup_setField_self, Option.getD_some]

/-- When the target is not an object or the queued value is not an object,
the deep merge at a path is exactly the overwrite the loop performs. -/
theorem deepMergeAt_eq_setPath :
    ∀ (p : List String) (a v : Json),
      ¬ (isObjB (getPath (ensurePath a p) p) = true ∧ isObjB v = true) →
      deepMergeAt a p v = setPath (ensurePath a p) p v := by
  intro p
  induction p with
  | nil =>
      intro a v h
      show deepMerge a v = v
      exact deepMerge_not_both_obj a v (by simpa [ensurePath, getPath] using h)
  | cons k p ih =>
      intro a v h
      rw [deepMergeAt, ensurePath, setPath]
      simp only [fieldsOf_obj, lookup_setField_self, Option.getD_some,
        setField_setField_same]
      rw [ih ((List.lookup k (fieldsOf a)).getD .null) v
        (by rw [← getPath_ensure_cons a k p]; exact h)]

/-- Unfolding: deep merge at a one-key path. -/
theorem deepMergeAt_single (a : Json) (k : String) (v : Json) :
    deepMergeAt a [k] v =
      .obj (setField (fieldsOf a) k
        (deepMerge ((List.lookup k (fieldsOf a)).getD .null) v)) := rfl

/-- Unfolding: deep merge at a longer path. -/
theorem deepMergeAt_cons (a : Json) (k : String) (p : List String) (v : Json) :
    deepMergeAt a (k :: p) v =
      .obj (setField (fieldsOf a) k
        (deepMergeAt ((List.lookup k (fieldsOf a)).getD .null) p v)) := rfl

/-- Merges below one fixed key thread through the enclosing object. -/
theorem foldl_deepMergeAt_under_key (k : String) (p : List String)
    (fs : List (String × Json)) :
    ∀ (fb : List (String × Json)) (b : Json),
      fb.foldl (fun acc kv => deepMergeAt acc (k :: (p ++ [kv.1])) kv.2)
        (.obj (setField fs k b)) =
      .obj (setField fs k
        (fb.foldl (fun acc kv => deepMergeAt acc (p ++ [kv.1]) kv.2) b)) := by
  intro fb
  induction fb with
  | nil => intro b; rw [List.foldl_nil, List.foldl_nil]
  | cons kv fb ih =>
      intro b
      rw [List.foldl_cons, List.foldl_cons]
      rw [show deepMergeAt (Json.obj (setField fs k b)) (k :: (p ++ [kv.1])) kv.2
          = Json.obj (setField fs k (deepMergeAt b (p ++ [kv.1]) kv.2)) by
        rw [deepMergeAt_cons]
        simp only [fieldsOf_obj, lookup_setField_self, Option.getD_some,
          setField_setField_same]]
      exact ih (deepMergeAt b (p ++ [kv.1]) kv.2)

/-- At the root, folding single-key merges over the new fields is the
recursive field merge. -/
theorem foldl_deepMergeAt_base :
    ∀ (fb fa : List (String × Json)),
      fb.foldl (fun acc kv => deepMergeAt acc [kv.1] kv.2) (.obj fa) =
      .obj (deepMergeFields fa fb) := by
  intro fb
  induction fb with
  | nil => intro fa; rw [List.foldl_nil, deepMergeFields_nil]
  | cons kv fb ih =>
      intro fa
      obtain ⟨k, bv⟩ := kv
      rw [List.foldl_cons]
      rw [show deepMergeAt (Json.obj fa) [k] bv =
          Json.obj (setField fa k (deepMerge ((List.lookup k fa).getD .null) bv)) by
        rw [deepMergeAt_single, fieldsOf_obj]]
      rw [ih, deepMergeFields_cons]

/-- Forward fold law: when the target at `p` is an object, folding the new
object's fields one key deeper computes the deep merge at `p`. -/
theorem foldl_deepMergeAt_obj :
    ∀ (p : List String) (a : Json) (fb : List (String × Json)),
      isObjB (getPath (ensurePath a p) p) = true →
      fb.foldl (fun acc kv => deepMergeAt acc (p ++ [kv.1]) kv.2)
        (ensurePath a p) =
      deepMergeAt a p (.obj fb) := by
  intro p
  induction p with
  | nil =>
      intro a fb hobj
      cases a with
      | obj fa =>
          show fb.foldl (fun acc kv => deepMergeAt acc [kv.1] kv.2)
            (Json.obj fa) = deepMerge (Json.obj fa) (Json.obj fb)
          rw [foldl_deepMergeAt_base fb fa, deepMerge_obj_obj]
      | null => simp [ensurePath, getPath, isObjB] at hobj
      | bool b => simp [ensurePath, getPath, isObjB] at hobj
      | num n => simp [ensurePath, getPath, isObjB] at hobj
      | str s => simp [ensurePath, getPath, isObjB] at hobj
      | arr xs => simp [ensurePath, getPath, isObjB] at hobj
  | cons k p ih =>
      intro a fb hobj
      rw [ensurePath]
      rw [show (fun (acc : Json) (kv : String × Json) =>
            deepMergeAt acc ((k :: p) ++ [kv.1]) kv.2) =
          (fun acc kv => deepMergeAt acc (k :: (p ++ [kv.1])) kv.2) from rfl]
      rw [foldl_deepMergeAt_under_key k p (fieldsOf a) fb
        (ensurePath ((List.lookup k (fieldsOf a)).getD .null) p)]
      rw [ih ((List.lookup k (fieldsOf a)).getD .null) fb
        (by rw [← getPath_ensure_cons]; exact hobj)]
      rw [deepMergeAt_cons]

/-- Deep merges below a common path at distinct final keys commute. -/
theorem deepMergeAt_append_comm :
    ∀ (p : List String) (a : Json) (k1 k2 : String) (v1 v2 : Json), k1 ≠ k2 →
      deepMergeAt (deepMergeAt a (p ++ [k1]) v1) (p ++ [k2]) v2 =
      deepMergeAt (deepMergeAt a (p ++ [k2]) v2) (p ++ [k1]) v1 := by
  intro p
  induction p with
  | nil =>
      intro a k1 k2 v1 v2 hne
      show deepMergeAt (deepMergeAt a [k1] v1) [k2] v2 =
        deepMergeAt (deepMergeAt a [k2] v2) [k1] v1
      rw [deepMergeAt_single a k1 v1, deepMergeAt_single a k2 v2,
        deepMergeAt_single, deepMergeAt_single]
      simp only [fieldsOf_obj]
      rw [lookup_setField_ne (fieldsOf a) k1 k2 _ (Ne.symm hne),
        lookup_setField_ne (fieldsOf a) k2 k1 _ hne]
      rw [setField_comm k1 k2 _ _ hne (fieldsOf a)]
  | cons k p ih =>
      intro a k1 k2 v1 v2 hne
      rw [show ((k :: p) ++ [k1]) = k :: (p ++ [k1]) from rfl,
        show ((k :: p) ++ [k2]) = k :: (p ++ [k2]) from rfl]
      rw [deepMergeAt_cons a k (p ++ [k1]) v1, deepMergeAt_cons a k (p ++ [k2]) v2,
        deepMergeAt_cons, deepMergeAt_cons]
      simp only [fieldsOf_obj, lookup_setField_self, Option.getD_some,
        setField_setField_same]
      rw [ih ((List.lookup k (fieldsOf a)).getD .null) k1 k2 v1 v2 hne]

/-- Every JSON value has positive size. -/
theorem sizeJ_pos (v : Json) : 1 ≤ sizeJ v := by
  cases v <;> simp [sizeJ]

/-- Unfolding: the size of an object. -/
theorem sizeJ_obj (fs : List (String × Json)) :
    sizeJ (.obj fs) = 1 + sizeFields fs := by
  simp [sizeJ]

/-- Unfolding: the size of a field list. -/
theorem sizeFields_cons (kv : String × Json) (fs : List (String × Json)) :
    sizeFields (kv :: fs) = 1 + sizeJ kv.2 + sizeFields fs := by
  simp [sizeFields]

/-- A field's value is no larger than the whole field list. -/
theorem sizeJ_le_of_mem :
    ∀ (fs : List (String × Json)) (kv : String × Json), kv ∈ fs →
      sizeJ kv.2 ≤ sizeFields fs := by
  intro fs
  induction fs with
  | nil => intro kv h; cases h
  | cons kv2 fs ih =>
      intro kv h
      rw [sizeFields_cons]
      rcases List.mem_cons.mp h with h | h
      · rw [h]; omega
      · have := ih kv h; omega

/-- `keysDistinct` is `Nodup`. -/
theorem keysDistinct_iff (ks : List String) :
    keysDistinct ks = true ↔ ks.Nodup := by
  induction ks with
  | nil => simp [keysDistinct]
  | cons k ks ih =>
      rw [keysDistinct, Bool.and_eq_true, ih, List.nodup_cons]
      simp [List.elem_iff]

/-- Unfolding: well-formedness of an object. -/
theorem wfJson_obj (fs : List (String × Json)) :
    wfJson (.obj fs) = (keysDistinct (fs.map Prod.fst) && wfFields fs) := by
  simp [wfJson]

/-- Unfolding: well-formedness of a field list. -/
theorem wfFields_cons (kv : String × Json) (fs : List (String × Json)) :
    wfFields (kv :: fs) = (wfJson kv.2 && wfFields fs) := by
  simp [wfFields]

/-- Every field value of a well-formed field list is well-formed. -/
theorem wfFields_mem :
    ∀ (fs : List (String × Json)), wfFields fs = true →
      ∀ kv ∈ fs, wfJson kv.2 = true := by
  intro fs
  induction fs with
  | nil => intro _ kv h; cases h
  | cons kv2 fs ih =>
      intro hwf kv h
      rw [wfFields_cons, Bool.and_eq_true] at hwf
      rcases List.mem_cons.mp h with h | h
      · rw [h]; exact hwf.1
      · exact ih hwf.2 kv h

/-- With distinct keys, the reversed fold of per-key deep merges equals the
forward fold (the stack pops the pushed sub-entries in reverse). -/
theorem foldl_deepMergeAt_reverse (p : List String)
    (fb : List (String × Json))
    (hdist : keysDistinct (fb.map Prod.fst) = true) (b : Json) :
    fb.reverse.foldl (fun acc kv => deepMergeAt acc (p ++ [kv.1]) kv.2) b =
    fb.foldl (fun acc kv => deepMergeAt acc (p ++ [kv.1]) kv.2) b := by
  refine List.Perm.foldl_eq' (List.reverse_perm fb) ?_ b
  intro x hx y hy z
  by_cases hxy : x = y
  · rw [hxy]
  · have hx' : x ∈ fb := List.mem_reverse.mp hx
    have hy' : y ∈ fb := List.mem_reverse.mp hy
    have hne : x.1 ≠ y.1 := by
      intro h1
      have hnodup : (fb.map Prod.fst).Nodup := (keysDistinct_iff _).mp hdist
      exact hxy (List.inj_on_of_nodup_map hnodup hx' hy' h1)
    exact deepMergeAt_append_comm p z x.1 y.1 x.2 y.2 hne

/-- Bridge: popping one well-formed entry of the work list performs the
deep merge of its value at its path. -/
theorem mergeLoop_deepMergeAt :
    ∀ (n : Nat) (v : Json), sizeJ v ≤ n → wfJson v = true →
      ∀ (a : Json) (p : List String) (rest : List (List String × Json)),
        mergeLoop a ((p, v) :: rest) = mergeLoop (deepMergeAt a p v) rest := by
  intro n
  induction n with
  | zero =>
      intro v hsz
      exact absurd hsz (by have := sizeJ_pos v; omega)
  | succ n ihn =>
      intro v hsz hwf a p rest
      rw [mergeLoop_cons]
      by_cases hcond : (isObjB (getPath (ensurePath a p) p) && isObjB v) = true
      · rw [if_pos hcond]
        rw [Bool.and_eq_true] at hcond
        cases v with
        | obj fb =>
            rw [wfJson_obj, Bool.and_eq_true] at hwf
            rw [fieldsOf_obj]
            have hsub : ∀ (gs : List (String × Json)),
                (∀ kv ∈ gs, sizeJ kv.2 ≤ n ∧ wfJson kv.2 = true) →
                ∀ (b : Json) (rest2 : List (List String × Json)),
                  mergeLoop b ((gs.map (fun kv => (p ++ [kv.1], kv.2))) ++ rest2) =
                  mergeLoop
                    (gs.foldl (fun acc kv => deepMergeAt acc (p ++ [kv.1]) kv.2) b)
                    rest2 := by
              intro gs
              induction gs with
              | nil =>
                  intro _ b rest2
                  rw [List.map_nil, List.nil_append, List.foldl_nil]
              | cons kv gs ihg =>
                  intro hkv b rest2
                  rw [List.map_cons, List.cons_append, List.foldl_cons]
                  rw [ihn kv.2 (hkv kv (List.mem_cons_self kv gs)).1
                    (hkv kv (List.mem_cons_self kv gs)).2 b (p ++ [kv.1])
                    ((gs.map (fun kv => (p ++ [kv.1], kv.2))) ++ rest2)]
                  exact ihg (fun kv2 h2 => hkv kv2 (List.mem_cons_of_mem kv h2))
                    (deepMergeAt b (p ++ [kv.1]) kv.2) rest2
            have hbound : ∀ kv ∈ fb.reverse,
                sizeJ kv.2 ≤ n ∧ wfJson kv.2 = true := by
              intro kv hkv
              have hkv' : kv ∈ fb := List.mem_reverse.mp hkv
              refine ⟨?_, wfFields_mem fb hwf.2 kv hkv'⟩
              have h1 : sizeJ kv.2 ≤ sizeFields fb := sizeJ_le_of_mem fb kv hkv'
              have h2 : sizeJ (Json.obj fb) = 1 + sizeFields fb := sizeJ_obj fb
              omega
            rw [show ((fb.map (fun kv => (p ++ [kv.1], kv.2))).reverse) =
                (fb.reverse).map (fun kv => (p ++ [kv.1], kv.2)) from
              (List.map_reverse _ _).symm]
            rw [hsub fb.reverse hbound (ensurePath a p) rest]
            rw [foldl_deepMergeAt_reverse p fb hwf.1 (ensurePath a p)]
            rw [foldl_deepMergeAt_obj p a fb hcond.1]
        | null => simp [isObjB] at hcond
        | bool b => simp [isObjB] at hcond
        | num m => simp [isObjB] at hcond
        | str s => simp [isObjB] at hcond
        | arr xs => simp [isObjB] at hcond
      · rw [if_neg hcond]
        rw [deepMergeAt_eq_setPath p a v
          (fun hc => hcond (by rw [hc.1, hc.2]; rfl))]

/-- C9: the iterative, path-queued `merge_json` equals the recursive deep
merge on every well-formed JSON payload (object keys recurse, non-object
values overwrite), and `metrics_json` after a sequence of `mark_done`
merges is the left fold of the recursive deep merge over the payloads. -/
theorem merge_json_correct :
    (∀ (a b : Json), wfJson b = true → merge_json a b = deepMerge a b)
    ∧ (∀ (old : Json) (ps : List Json), (∀ q ∈ ps, wfJson q = true) →
        ps.foldl merge_json old = ps.foldl deepMerge old) := by
  have hpoint : ∀ (a b : Json), wfJson b = true → merge_json a b = deepMerge a b := by
    intro a b hwf
    rw [merge_json]
    rw [mergeLoop_deepMergeAt (sizeJ b) b (le_refl _) hwf a [] []]
    rw [mergeLoop_nil]
    rfl
  refine ⟨hpoint, ?_⟩
  intro old ps
  induction ps generalizing old with
  | nil => intro _; rfl
  | cons q ps ih =>
      intro hwf
      rw [List.foldl_cons, List.foldl_cons,
        hpoint old q (hwf q (List.mem_cons_self q ps))]
      exact ih (deepMerge old q) (fun r hr => hwf r (List.mem_cons_of_mem q hr))

/-- Closed instance of `merge_json_correct`. -/
theorem merge_json_correct_witness :
    wfJson (.obj [("IS", .obj [("sharpe", .num "2")])]) = true
    ∧ merge_json
        (.obj [("IS", .obj [("checks", .arr [.str "a"]), ("sharpe", .num "1")]),
               ("x", .bool true)])
        (.obj [("IS", .obj [("sharpe", .num "2")])]) =
      deepMerge
        (.obj [("IS", .obj [("checks", .arr [.str "a"]), ("sharpe", .num "1")]),
               ("x", .bool true)])
        (.obj [("IS", .obj [("sharpe", .num "2")])]) :=
  ⟨by simp [wfJson, wfFields, wfArr, keysDistinct],
   merge_json_correct.1 _ _ (by simp [wfJson, wfFields, wfArr, keysDistinct])⟩

end Rustwqb
